import Mathlib

/-! gcontact_backup: contact record to vCard 3.0

A shallow embedding of `quickstart.go`: the mapper `googleToCard` and the
encoder `Encoder.Encode` with its helpers `formatLine`,
`formatLineMultiValue`, `formatParam` and `formatValue`.

Conventions of the embedding.

* A Go `string` is a Lean `String`, i.e. a sequence of Unicode code points.
  The strings of the program come from decoded JSON and from literals, so they
  are valid UTF-8; on such strings the byte-wise operations of the program
  (the single-byte replacer, `sort.Strings`) agree with the code-point-wise
  ones used here.
* A Go `map` is an association list whose keys are pairwise distinct
  (`vcard.Card.WF`).  Where the program ranges over a map, the list order stands for
  the iteration order the runtime happens to pick.
* The record `p` and the entries of its slices are non-nil.  A pointer that
  the program dereferences without a check and that the People API may leave
  unset (`Birthday.Date`,
  `Membership.ContactGroupMembership`) is an `Option`; dereferencing `none`
  is the run-time panic `Run.panic`.
* The Unicode case tables of the Go standard library are a parameter
  (`UnicodeTables`); the ASCII behaviour of `strings.ToUpper` and
  `strings.EqualFold` is modelled exactly.
-/

namespace GContactBackup

/-! ## Go runtime and standard library -/

/-- A non-nil Go `error`, identified with its message; `Option GoError` is an
`error` value, `none` standing for `nil`. -/
abbrev GoError := String

/-- The outcome of running a Go function: it returns, or the goroutine panics
(here only on a nil pointer dereference). -/
inductive Run (α : Type) where
  | done (a : α)
  | panic (msg : String)
deriving DecidableEq, Repr

/-- The Unicode tables of the Go standard library that the program reaches
through `strings.ToUpper` and `strings.EqualFold`.  `upper r` is
`unicode.ToUpper(r)` for a rune above ASCII; `foldReach sr tr`, for `sr < tr`
with `tr` above ASCII, tells whether the `unicode.SimpleFold` orbit of `sr`
reaches `tr`. -/
structure UnicodeTables where
  upper : Char → Char
  foldReach : Char → Char → Bool

/-- Tables under which no rune above ASCII has another case; used to evaluate
the program on ASCII data, where the tables are not consulted. -/
def UnicodeTables.caseless : UnicodeTables :=
  { upper := fun r => r, foldReach := fun _ _ => false }

/-- Embeds `unicode.ToUpper`: ASCII letters are mapped by arithmetic, other
runes through the table. -/
def unicode.ToUpper (U : UnicodeTables) (r : Char) : Char :=
  if r.toNat ≤ 0x7F then
    if 'a'.toNat ≤ r.toNat ∧ r.toNat ≤ 'z'.toNat then Char.ofNat (r.toNat - 32) else r
  else U.upper r

/-- Embeds `strings.ToUpper`: every rune is mapped by `unicode.ToUpper` (the
ASCII fast path of the library computes the same string). -/
def strings.ToUpper (U : UnicodeTables) (s : String) : String :=
  ⟨s.data.map (unicode.ToUpper U)⟩

/-- One step of the loop of `strings.EqualFold`: are the runes `a` and `b`
equal under simple case folding. -/
def equalFoldRune (U : UnicodeTables) (a b : Char) : Bool :=
  if a = b then true
  else
    let sr := if b.toNat < a.toNat then b else a
    let tr := if b.toNat < a.toNat then a else b
    if tr.toNat < 0x80 then
      decide ('A'.toNat ≤ sr.toNat ∧ sr.toNat ≤ 'Z'.toNat ∧ tr.toNat = sr.toNat + 32)
    else U.foldReach sr tr

/-- The loop of `strings.EqualFold`, rune by rune; strings of different
length are never equal. -/
def equalFoldChars (U : UnicodeTables) : List Char → List Char → Bool
  | [], [] => true
  | a :: s, b :: t => equalFoldRune U a b && equalFoldChars U s t
  | _, _ => false

/-- Embeds `strings.EqualFold`. -/
def strings.EqualFold (U : UnicodeTables) (s t : String) : Bool :=
  equalFoldChars U s.data t.data

/-- Embeds `strings.Join(elems, sep)`. -/
def strings.Join : List String → String → String
  | [], _ => ""
  | [a], _ => a
  | a :: b :: rest, sep => a ++ sep ++ strings.Join (b :: rest) sep

/-- The order `<` of Go strings: lexicographic by code unit, which on valid
UTF-8 is lexicographic by code point. -/
def runesLess : List Char → List Char → Bool
  | [], [] => false
  | [], _ :: _ => true
  | _ :: _, [] => false
  | a :: s, b :: t =>
    if a.toNat < b.toNat then true
    else if b.toNat < a.toNat then false
    else runesLess s t

/-- Embeds the comparison `a < b` of two Go strings. -/
def stringLess (a b : String) : Bool :=
  runesLess a.data b.data

/-- The comparison `a <= b` of two Go strings. -/
def stringLE (a b : String) : Prop :=
  stringLess b a = false

instance : DecidableRel stringLE := fun a b =>
  inferInstanceAs (Decidable (stringLess b a = false))

/-- Embeds `sort.Strings`: the keys in ascending order.  Equal strings cannot
be told apart, so every sorting algorithm returns this list. -/
def sort.Strings (keys : List String) : List String :=
  keys.insertionSort stringLE

/-! ## Value escaping -/

/-- The replacement table of `valueFormatter`
(`strings.NewReplacer("\\", "\\\\", "\n", "\\n", ",", "\\,")`): every old
string is a single byte, so the replacer rewrites each byte on its own. -/
def valueFormatter (c : Char) : List Char :=
  if c = '\\' then ['\\', '\\']
  else if c = '\n' then ['\\', 'n']
  else if c = ',' then ['\\', ',']
  else [c]

/-- The single left-to-right pass of `valueFormatter.Replace`. -/
def replaceChars : List Char → List Char
  | [] => []
  | c :: cs => valueFormatter c ++ replaceChars cs

/-- Embeds `formatValue`: `valueFormatter.Replace(v)`. -/
def formatValue (v : String) : String :=
  ⟨replaceChars v.data⟩

/-- The inverse rule the specification describes, on code points: reading left
to right, `\\` gives `\`, `\n` gives a newline, `\,` gives `,`, and any other
character is kept. -/
def unescapeChars : List Char → List Char
  | [] => []
  | [c] => [c]
  | c :: d :: rest =>
    if c = '\\' ∧ d = '\\' then '\\' :: unescapeChars rest
    else if c = '\\' ∧ d = 'n' then '\n' :: unescapeChars rest
    else if c = '\\' ∧ d = ',' then ',' :: unescapeChars rest
    else c :: unescapeChars (d :: rest)

/-- The unescape function of the specification, on strings. -/
def unescape (s : String) : String :=
  ⟨unescapeChars s.data⟩

/-! ## vcard -/

/-- The map read `m[k]` of a `map[string][]T`: the stored slice, or the nil
slice when `k` is not a key. -/
def mapIndex {α : Type} : List (String × List α) → String → List α
  | [], _ => []
  | (k', vs) :: rest, k => if k' = k then vs else mapIndex rest k

/-- The update `m[k] = append(m[k], x)` of a `map[string][]T`. -/
def mapAppend {α : Type} : List (String × List α) → String → α → List (String × List α)
  | [], k, x => [(k, [x])]
  | (k', vs) :: rest, k, x =>
    if k' = k then (k', vs ++ [x]) :: rest else (k', vs) :: mapAppend rest k x

/-- Embeds `vcard.Params`, a `map[string][]string`; the list order is the order
in which a `range` over the map happens to visit it. -/
abbrev vcard.Params := List (String × List String)

/-- Embeds `Params.Add`: `p[k] = append(p[k], v)`. -/
def vcard.Params.Add (p : vcard.Params) (k v : String) : vcard.Params :=
  mapAppend p k v

/-- Embeds `vcard.Field`. -/
structure vcard.Field where
  Value : String
  Params : vcard.Params
  Group : String
deriving DecidableEq, Repr

/-- Embeds `vcard.Card`, a `map[string][]*Field`; the slices hold non-nil
fields, as every card built through `Add` does. -/
abbrev vcard.Card := List (String × List vcard.Field)

/-- The property and parameter names are the constants of the package
`github.com/emersion/go-vcard` (file `card.go`), which the program imports:
`FieldVersion = "VERSION"`, `FieldFormattedName = "FN"`, `FieldName = "N"`,
`FieldPhoto = "PHOTO"`, `FieldBirthday = "BDAY"`, `FieldAddress = "ADR"`,
`FieldTelephone = "TEL"`, `FieldEmail = "EMAIL"`, `FieldTitle = "TITLE"`,
`FieldOrganization = "ORG"`, `FieldCategories = "CATEGORIES"`,
`FieldNote = "NOTE"`, `FieldURL = "URL"` and `ParamType = "TYPE"`; they are the
property names of RFC 2426 and RFC 6350. -/
def vcard.FieldVersion : String := "VERSION"
def vcard.FieldFormattedName : String := "FN"
def vcard.FieldName : String := "N"
def vcard.FieldPhoto : String := "PHOTO"
def vcard.FieldBirthday : String := "BDAY"
def vcard.FieldAddress : String := "ADR"
def vcard.FieldTelephone : String := "TEL"
def vcard.FieldEmail : String := "EMAIL"
def vcard.FieldTitle : String := "TITLE"
def vcard.FieldOrganization : String := "ORG"
def vcard.FieldCategories : String := "CATEGORIES"
def vcard.FieldNote : String := "NOTE"
def vcard.FieldURL : String := "URL"
def vcard.ParamType : String := "TYPE"

/-- The keys of the card, in the order a `range` over the map visits them. -/
def vcard.Card.keys (c : vcard.Card) : List String :=
  c.map Prod.fst

/-- The list stands for a map: no key occurs twice. -/
def vcard.Card.WF (c : vcard.Card) : Prop :=
  c.keys.Nodup

instance (c : vcard.Card) : Decidable c.WF :=
  inferInstanceAs (Decidable c.keys.Nodup)

/-- The map read `c[k]`. -/
def vcard.Card.index (c : vcard.Card) (k : String) : List vcard.Field :=
  mapIndex c k

/-- Embeds `Card.Get`: the first field of `c[k]`, or `nil` when `c[k]` is empty. -/
def vcard.Card.Get (c : vcard.Card) (k : String) : Option vcard.Field :=
  (c.index k).head?

/-- Embeds `Card.Add`: `c[k] = append(c[k], f)`. -/
def vcard.Card.Add (c : vcard.Card) (k : String) (f : vcard.Field) : vcard.Card :=
  mapAppend c k f

/-- The field `&Field{Value: v}`. -/
def vcard.valueField (v : String) : vcard.Field :=
  { Value := v, Params := [], Group := "" }

/-- Embeds `Card.AddValue`: `c.Add(k, &Field{Value: v})`. -/
def vcard.Card.AddValue (c : vcard.Card) (k v : String) : vcard.Card :=
  c.Add k (vcard.valueField v)

/-- Embeds `vcard.Name`; the embedded `*Field` may be nil. -/
structure vcard.Name where
  Field : Option vcard.Field
  FamilyName : String
  GivenName : String
  AdditionalName : String
  HonorificPrefix : String
  HonorificSuffix : String

/-- Embeds `Name.field`: a new field when `n.Field` is nil, its value set to
the five components joined by `;`. -/
def vcard.Name.field (n : vcard.Name) : vcard.Field :=
  { (n.Field.getD { Value := "", Params := [], Group := "" }) with
    Value := strings.Join
      [n.FamilyName, n.GivenName, n.AdditionalName, n.HonorificPrefix, n.HonorificSuffix] ";" }

/-- Embeds `Card.AddName`. -/
def vcard.Card.AddName (c : vcard.Card) (name : vcard.Name) : vcard.Card :=
  c.Add vcard.FieldName name.field

/-- Embeds `vcard.Address`; the embedded `*Field` may be nil. -/
structure vcard.Address where
  Field : Option vcard.Field
  PostOfficeBox : String
  ExtendedAddress : String
  StreetAddress : String
  Locality : String
  Region : String
  PostalCode : String
  Country : String

/-- Embeds `Address.field`: the field of the address (a new one when nil), its
value set to the seven components joined by `;`. -/
def vcard.Address.field (a : vcard.Address) : vcard.Field :=
  { (a.Field.getD { Value := "", Params := [], Group := "" }) with
    Value := strings.Join
      [a.PostOfficeBox, a.ExtendedAddress, a.StreetAddress, a.Locality, a.Region,
        a.PostalCode, a.Country] ";" }

/-- Embeds `Card.AddAddress`. -/
def vcard.Card.AddAddress (c : vcard.Card) (address : vcard.Address) : vcard.Card :=
  c.Add vcard.FieldAddress address.field

/-! ## people

The record types of `google.golang.org/api/people/v1`, with the fields the
program reads.  The Go field `Type` is written `Typ`. -/

/-- Embeds `people.Name`. -/
structure people.Name where
  DisplayName : String
  FamilyName : String
  GivenName : String
  HonorificPrefix : String
  HonorificSuffix : String
  MiddleName : String
deriving DecidableEq, Repr

/-- Embeds `people.ContactGroupMembership`. -/
structure people.ContactGroupMembership where
  ContactGroupResourceName : String
deriving DecidableEq, Repr

/-- Embeds `people.Membership`; `ContactGroupMembership` is a pointer, unset for
a domain membership. -/
structure people.Membership where
  ContactGroupMembership : Option people.ContactGroupMembership
deriving DecidableEq, Repr

/-- Embeds `people.EmailAddress`. -/
structure people.EmailAddress where
  Typ : String
  Value : String
deriving DecidableEq, Repr

/-- Embeds `people.PhoneNumber`. -/
structure people.PhoneNumber where
  CanonicalForm : String
  Typ : String
deriving DecidableEq, Repr

/-- Embeds `people.Date`; the components are `int64` in Go and are formatted
here without arithmetic, so no wrap-around arises. -/
structure people.Date where
  Day : Int
  Month : Int
  Year : Int
deriving DecidableEq, Repr

/-- Embeds `people.Birthday`; `Date` is a pointer, unset for a birthday given as
free text. -/
structure people.Birthday where
  Date : Option people.Date
deriving DecidableEq, Repr

/-- Embeds `people.Address`. -/
structure people.Address where
  City : String
  Country : String
  ExtendedAddress : String
  PoBox : String
  PostalCode : String
  Region : String
  StreetAddress : String
  Typ : String
deriving DecidableEq, Repr

/-- Embeds `people.Organization`. -/
structure people.Organization where
  Department : String
  Name : String
  Title : String
deriving DecidableEq, Repr

/-- Embeds `people.Url`. -/
structure people.Url where
  Typ : String
  Value : String
deriving DecidableEq, Repr

/-- Embeds `people.Photo`. -/
structure people.Photo where
  Url : String
deriving DecidableEq, Repr

/-- Embeds `people.Biography`. -/
structure people.Biography where
  Value : String
deriving DecidableEq, Repr

/-- Embeds `people.Person`; the slices hold non-nil entries, as a decoded
response does. -/
structure people.Person where
  Addresses : List people.Address
  Biographies : List people.Biography
  Birthdays : List people.Birthday
  EmailAddresses : List people.EmailAddress
  Memberships : List people.Membership
  Names : List people.Name
  Organizations : List people.Organization
  PhoneNumbers : List people.PhoneNumber
  Photos : List people.Photo
  Urls : List people.Url
deriving DecidableEq, Repr

/-! ## fmt -/

/-- The decimal digits of `n`, most significant first; `fuel` bounds the
number of digits and `n + 1` always suffices. -/
def decimalDigits : Nat → Nat → List Char
  | 0, _ => []
  | fuel + 1, n =>
    if n < 10 then [Char.ofNat (48 + n)]
    else decimalDigits fuel (n / 10) ++ [Char.ofNat (48 + n % 10)]

/-- The verb `%0<width>d` of `fmt` applied to an integer: the sign, if any,
then zeros up to the width, then the digits. -/
def fmt.zeroPadded (width : Nat) (n : Int) : String :=
  let digits := decimalDigits (n.natAbs + 1) n.natAbs
  let sign : List Char := if n < 0 then ['-'] else []
  ⟨sign ++ List.replicate (width - sign.length - digits.length) '0' ++ digits⟩

/-- Embeds `fmt.Sprintf("%04d%02d%02d", year, month, day)`. -/
def fmt.Sprintf_04d02d02d (year month day : Int) : String :=
  fmt.zeroPadded 4 year ++ fmt.zeroPadded 2 month ++ fmt.zeroPadded 2 day

/-! ## googleToCard -/

/-- The group lookup table behind the `*map[string]string` argument. -/
abbrev GroupMap := List (String × String)

/-- Embeds the map read `(*groupMap)[k]`: the stored name, or the zero value
`""` when `k` is not a key. -/
def GroupMap.index : GroupMap → String → String
  | [], _ => ""
  | (k', v) :: rest, k => if k' = k then v else GroupMap.index rest k

/-- The structured name built from the first name entry (lines 85-92). -/
def nameOf (pName : people.Name) : vcard.Name :=
  { Field := none
    FamilyName := pName.FamilyName
    GivenName := pName.GivenName
    AdditionalName := pName.MiddleName
    HonorificPrefix := pName.HonorificPrefix
    HonorificSuffix := pName.HonorificSuffix }

/-- The loop over `p.Memberships` (lines 96-98); `m.ContactGroupMembership` is
dereferenced without a check. -/
def addMemberships (groupMap : GroupMap) :
    List people.Membership → vcard.Card → Run vcard.Card
  | [], card => .done card
  | m :: ms, card =>
    match m.ContactGroupMembership with
    | none => .panic "invalid memory address or nil pointer dereference"
    | some cgm =>
      addMemberships groupMap ms
        (card.AddValue vcard.FieldCategories (groupMap.index cgm.ContactGroupResourceName))

/-- The field built for one email address (lines 101-108). -/
def emailField (U : UnicodeTables) (e : people.EmailAddress) : vcard.Field :=
  let params : vcard.Params := []
  let params := params.Add vcard.ParamType "INTERNET"
  let params := params.Add vcard.ParamType (strings.ToUpper U e.Typ)
  { Value := e.Value, Params := params, Group := "" }

/-- The loop over `p.EmailAddresses` (lines 100-109). -/
def addEmailAddresses (U : UnicodeTables) (es : List people.EmailAddress)
    (card : vcard.Card) : vcard.Card :=
  es.foldl (fun card e => card.Add vcard.FieldEmail (emailField U e)) card

/-- The field built for one phone number (lines 112-118). -/
def phoneField (U : UnicodeTables) (p : people.PhoneNumber) : vcard.Field :=
  let params : vcard.Params := []
  let params := params.Add vcard.ParamType (strings.ToUpper U p.Typ)
  { Value := p.CanonicalForm, Params := params, Group := "" }

/-- The loop over `p.PhoneNumbers` (lines 111-119). -/
def addPhoneNumbers (U : UnicodeTables) (ps : List people.PhoneNumber)
    (card : vcard.Card) : vcard.Card :=
  ps.foldl (fun card p => card.Add vcard.FieldTelephone (phoneField U p)) card

/-- The value stored for one birthday whose date is set (line 122). -/
def birthdayValue (date : people.Date) : String :=
  fmt.Sprintf_04d02d02d date.Year date.Month date.Day

/-- The loop over `p.Birthdays` (lines 121-123); `b.Date` is dereferenced
without a check. -/
def addBirthdays : List people.Birthday → vcard.Card → Run vcard.Card
  | [], card => .done card
  | b :: bs, card =>
    match b.Date with
    | none => .panic "invalid memory address or nil pointer dereference"
    | some date => addBirthdays bs (card.AddValue vcard.FieldBirthday (birthdayValue date))

/-- The structured address built for one source address (lines 126-142). -/
def addressOf (U : UnicodeTables) (a : people.Address) : vcard.Address :=
  let field : vcard.Field := { Value := "", Params := [], Group := "" }
  let field :=
    if a.Typ ≠ "" then
      { field with Params := field.Params.Add vcard.ParamType (strings.ToUpper U a.Typ) }
    else field
  { Field := some field
    PostOfficeBox := a.PoBox
    ExtendedAddress := a.ExtendedAddress
    StreetAddress := a.StreetAddress
    Locality := a.City
    Region := a.Region
    PostalCode := a.PostalCode
    Country := a.Country }

/-- The loop over `p.Addresses` (lines 125-143). -/
def addAddresses (U : UnicodeTables) (as : List people.Address) (card : vcard.Card) :
    vcard.Card :=
  as.foldl (fun card a => card.AddAddress (addressOf U a)) card

/-- The value stored for one organization (lines 148-152). -/
def organizationValue (o : people.Organization) : String :=
  let org := o.Name
  if o.Department ≠ "" then org ++ (";" ++ o.Department) else org

/-- The loop over `p.Organizations` (lines 147-159): the state is the card and
the local variable `title`. -/
def addOrganizations (os : List people.Organization) (card : vcard.Card) (title : String) :
    vcard.Card × String :=
  os.foldl (fun st o =>
    (st.1.AddValue vcard.FieldOrganization (organizationValue o),
      if st.2 = "" then o.Title else st.2)) (card, title)

/-- The field built for one web link (lines 166-172). -/
def urlField (U : UnicodeTables) (u : people.Url) : vcard.Field :=
  let params : vcard.Params := []
  let params := params.Add vcard.ParamType (strings.ToUpper U u.Typ)
  { Value := u.Value, Params := params, Group := "" }

/-- The loop over `p.Urls` (lines 165-173). -/
def addUrls (U : UnicodeTables) (us : List people.Url) (card : vcard.Card) : vcard.Card :=
  us.foldl (fun card u => card.Add vcard.FieldURL (urlField U u)) card

/-- The loop over `p.Photos` (lines 175-177). -/
def addPhotos (is : List people.Photo) (card : vcard.Card) : vcard.Card :=
  is.foldl (fun card i => card.AddValue vcard.FieldPhoto i.Url) card

/-- The loop over `p.Biographies` (lines 179-181). -/
def addBiographies (ns : List people.Biography) (card : vcard.Card) : vcard.Card :=
  ns.foldl (fun card n => card.AddValue vcard.FieldNote n.Value) card

/-- The part of `googleToCard` after the birthdays (lines 125-183). -/
def finishCard (U : UnicodeTables) (p : people.Person) (card : vcard.Card) : vcard.Card :=
  let card := addAddresses U p.Addresses card
  let title := ""
  let st := addOrganizations p.Organizations card title
  let card := st.1
  let title := st.2
  let card := if title ≠ "" then card.AddValue vcard.FieldTitle title else card
  let card := addUrls U p.Urls card
  let card := addPhotos p.Photos card
  addBiographies p.Biographies card

/-- Embeds `googleToCard`.  The result is the returned pair `(card, err)`,
`none` standing for `nil`, or the run-time panic of a nil dereference. -/
def googleToCard (U : UnicodeTables) (p : people.Person) (groupMap : Option GroupMap) :
    Run (Option vcard.Card × Option GoError) :=
  match p.Names with
  | [] => .done (none, some "person has no name")
  | pName :: _ =>
    match groupMap with
    | none => .done (none, some "groupMap is nil")
    | some groupMap =>
      let card : vcard.Card := []
      let card := card.AddValue vcard.FieldVersion "3.0"
      let card := card.AddName (nameOf pName)
      let card := card.AddValue vcard.FieldFormattedName pName.DisplayName
      match addMemberships groupMap p.Memberships card with
      | .panic msg => .panic msg
      | .done card =>
        let card := addEmailAddresses U p.EmailAddresses card
        let card := addPhoneNumbers U p.PhoneNumbers card
        match addBirthdays p.Birthdays card with
        | .panic msg => .panic msg
        | .done card => .done (some (finishCard U p card), none)

/-! ## Encoder -/

/-- A failing write: the sink takes the first `accepted` code points of the
data and reports `err`. -/
structure WriteFault where
  accepted : Nat
  err : GoError
deriving DecidableEq, Repr

/-- The `io.Writer` behind the encoder: the data it has taken, one entry per
write attempt, and the outcome of the coming write attempts (`none` for a
successful write; once the script is used up every write succeeds). -/
structure Sink where
  writes : List String
  script : List (Option WriteFault)
deriving DecidableEq, Repr

/-- Everything the sink has taken so far, as one string. -/
def Sink.bytes (w : Sink) : String :=
  String.join w.writes

/-- Every coming write to the sink succeeds. -/
def Sink.reliable (w : Sink) : Prop :=
  ∀ o ∈ w.script, o = none

instance (w : Sink) : Decidable w.reliable :=
  inferInstanceAs (Decidable (∀ o ∈ w.script, o = none))

/-- Embeds `io.WriteString(w, s)`: one write attempt; the result is the sink
afterwards and the returned error. -/
def io.WriteString (w : Sink) (s : String) : Sink × Option GoError :=
  match w.script with
  | [] => ({ w with writes := w.writes ++ [s] }, none)
  | none :: rest => ({ writes := w.writes ++ [s], script := rest }, none)
  | some fault :: rest =>
    ({ writes := w.writes ++ [⟨s.data.take fault.accepted⟩], script := rest }, some fault.err)

/-- Embeds `Encoder`. -/
structure Encoder where
  w : Sink
deriving DecidableEq, Repr

/-- Embeds `NewEncoder`. -/
def NewEncoder (w : Sink) : Encoder :=
  { w := w }

/-- Embeds `formatParam`. -/
def formatParam (k v : String) : String :=
  k ++ ("=" ++ formatValue v)

/-- Embeds `formatLine`; the parameters are visited in the order of the list
`field.Params`. -/
def formatLine (key : String) (field : vcard.Field) : String :=
  let s := ""
  let s := if field.Group ≠ "" then s ++ (field.Group ++ ".") else s
  let s := s ++ key
  let s := field.Params.foldl (fun s kv =>
    kv.2.foldl (fun s pv => s ++ (";" ++ formatParam kv.1 pv)) s) s
  s ++ (":" ++ formatValue field.Value)

/-- Embeds `formatLineMultiValue`. -/
def formatLineMultiValue (key : String) (fields : List vcard.Field) : String :=
  let s := ""
  let s := s ++ key
  let vals := fields.map (fun f => formatValue f.Value)
  s ++ (":" ++ strings.Join vals ",")

/-- The inner loop of `Encode` (lines 340-344): one write per field, stopping
at the first error. -/
def writeFields (k : String) : List vcard.Field → Sink → Sink × Option GoError
  | [], w => (w, none)
  | f :: fs, w =>
    match io.WriteString w (formatLine k f ++ "\r\n") with
    | (w, some err) => (w, some err)
    | (w, none) => writeFields k fs w

/-- The loop of `Encode` over the sorted keys (lines 328-345), stopping at the
first error. -/
def writeKeys (U : UnicodeTables) (c : vcard.Card) : List String → Sink → Sink × Option GoError
  | [], w => (w, none)
  | k :: ks, w =>
    let fields := c.index k
    if strings.EqualFold U k vcard.FieldVersion then writeKeys U c ks w
    else if strings.EqualFold U k vcard.FieldCategories then
      match io.WriteString w (formatLineMultiValue k fields ++ "\r\n") with
      | (w, some err) => (w, some err)
      | (w, none) => writeKeys U c ks w
    else
      match writeFields k fields w with
      | (w, some err) => (w, some err)
      | (w, none) => writeKeys U c ks w

/-- Embeds `Encoder.Encode`: the result is the encoder with its sink afterwards
and the returned error. -/
def Encoder.Encode (U : UnicodeTables) (enc : Encoder) (c : vcard.Card) :
    Encoder × Option GoError :=
  let begin := "BEGIN:VCARD\r\n"
  match io.WriteString enc.w begin with
  | (w, some err) => ({ w := w }, some err)
  | (w, none) =>
    match c.Get vcard.FieldVersion with
    | none => ({ w := w }, some "vcard: VERSION field missing")
    | some version =>
      match io.WriteString w (formatLine vcard.FieldVersion version ++ "\r\n") with
      | (w, some err) => ({ w := w }, some err)
      | (w, none) =>
        let keys := sort.Strings c.keys
        match writeKeys U c keys w with
        | (w, some err) => ({ w := w }, some err)
        | (w, none) =>
          let endLine := "END:VCARD\r\n"
          match io.WriteString w endLine with
          | (w, err) => ({ w := w }, err)

/-! ## Reading the sink -/

/-- The sink after it has accepted the given writes in full, one write
attempt each. -/
def Sink.push (w : Sink) (chunks : List String) : Sink :=
  { writes := w.writes ++ chunks, script := w.script.drop chunks.length }

/-- The lines the loop body of `Encode` writes for a key `k` that is not
skipped as `VERSION`: the single folded line when `k` equals `CATEGORIES`
under case folding, and one line per field entry otherwise. -/
def keyLines (U : UnicodeTables) (c : vcard.Card) (k : String) : List String :=
  if strings.EqualFold U k vcard.FieldCategories then
    [formatLineMultiValue k (c.index k) ++ "\r\n"]
  else (c.index k).map (fun f => formatLine k f ++ "\r\n")

/-- Strictly ascending order of a list of keys. -/
def StrictlyAscending (ks : List String) : Prop :=
  ks.Pairwise (fun a b => stringLess a b = true)

instance (ks : List String) : Decidable (StrictlyAscending ks) :=
  inferInstanceAs (Decidable (ks.Pairwise (fun a b => stringLess a b = true)))

/-! ## Sample data -/

/-- A sink that has accepted nothing yet and never fails. -/
def Sink.fresh : Sink :=
  { writes := [], script := [] }

/-- A card whose keys were inserted in the order EMAIL, ADR, FN, VERSION. -/
def sampleCard : vcard.Card :=
  [("EMAIL", [{ Value := "ada@example.org", Params := [("TYPE", ["INTERNET", "HOME"])],
                Group := "" }]),
   ("ADR", [{ Value := ";;Ring 1;Wien;;1010;AT", Params := [], Group := "" }]),
   ("FN", [{ Value := "Ada L", Params := [], Group := "" }]),
   ("VERSION", [{ Value := "3.0", Params := [], Group := "" }])]

/-- A card without any field under VERSION. -/
def cardWithoutVersion : vcard.Card :=
  [("FN", [{ Value := "Ada L", Params := [], Group := "" }])]

/-- A card whose VERSION key holds two field entries. -/
def cardWithTwoVersions : vcard.Card :=
  [("VERSION", [{ Value := "3.0", Params := [], Group := "" },
                { Value := "4.0", Params := [], Group := "" }]),
   ("FN", [{ Value := "Ada L", Params := [], Group := "" }])]

/-- A card whose CATEGORIES key holds two entries, the first of them with a
group and a parameter. -/
def cardWithCategories : vcard.Card :=
  [("VERSION", [{ Value := "3.0", Params := [], Group := "" }]),
   ("FN", [{ Value := "Ada L", Params := [], Group := "" }]),
   ("CATEGORIES", [{ Value := "Friends", Params := [("TYPE", ["X"])], Group := "g" },
                   { Value := "Work", Params := [], Group := "" }]),
   ("EMAIL", [{ Value := "ada@example.org", Params := [], Group := "" }])]

/-! ## Reading the mapper -/

/-- The card `googleToCard` returns for a record whose first name entry is
`pName`, whose memberships carry the contact-group memberships `cgms` and
whose birthdays carry the dates `dates`: the same steps as in `googleToCard`,
the two loops that dereference a pointer running over the pointed-to values. -/
def builtCard (U : UnicodeTables) (p : people.Person) (pName : people.Name)
    (groupMap : GroupMap) (cgms : List people.ContactGroupMembership)
    (dates : List people.Date) : vcard.Card :=
  let card : vcard.Card := []
  let card := card.AddValue vcard.FieldVersion "3.0"
  let card := card.AddName (nameOf pName)
  let card := card.AddValue vcard.FieldFormattedName pName.DisplayName
  let card := cgms.foldl (fun card cgm =>
    card.AddValue vcard.FieldCategories (groupMap.index cgm.ContactGroupResourceName)) card
  let card := addEmailAddresses U p.EmailAddresses card
  let card := addPhoneNumbers U p.PhoneNumbers card
  let card := dates.foldl (fun card date =>
    card.AddValue vcard.FieldBirthday (birthdayValue date)) card
  finishCard U p card

/-- The value of the local variable `title` after the loop over the
organizations: the title of the first organization whose title is not empty,
or `""` when there is none. -/
def titleAfterLoop (os : List people.Organization) : String :=
  match os.find? (fun o => decide (o.Title ≠ "")) with
  | some o => o.Title
  | none => ""

/-- A name entry. -/
def sampleName : people.Name :=
  { DisplayName := "Ada L", FamilyName := "L", GivenName := "Ada", HonorificPrefix := "",
    HonorificSuffix := "", MiddleName := "" }

/-- A record with no data at all. -/
def emptyPerson : people.Person :=
  { Addresses := [], Biographies := [], Birthdays := [], EmailAddresses := [],
    Memberships := [], Names := [], Organizations := [], PhoneNumbers := [], Photos := [],
    Urls := [] }

/-- A record with an email address and a phone number but no name entry. -/
def personWithoutName : people.Person :=
  { emptyPerson with
    EmailAddresses := [{ Typ := "home", Value := "ada@example.org" }]
    PhoneNumbers := [{ CanonicalForm := "+4312345", Typ := "mobile" }] }

/-- A named record whose only birthday entry carries a text but no date, as
the People API returns for a free-form birthday. -/
def personBirthdayWithoutDate : people.Person :=
  { emptyPerson with Names := [sampleName], Birthdays := [{ Date := none }] }

/-- A named record whose only membership is a domain membership, so that its
contact-group membership is unset. -/
def personDomainMembership : people.Person :=
  { emptyPerson with Names := [sampleName], Memberships := [{ ContactGroupMembership := none }] }

/-- A named record with two organizations, the first without a title. -/
def personTwoOrganizations : people.Person :=
  { emptyPerson with
    Names := [sampleName]
    Organizations := [{ Department := "", Name := "ACME", Title := "" },
                      { Department := "", Name := "Initech", Title := "CEO" }] }

/-- A named record with two phone numbers. -/
def personWithPhones : people.Person :=
  { emptyPerson with
    Names := [sampleName]
    PhoneNumbers := [{ CanonicalForm := "+4312345", Typ := "mobile" },
                     { CanonicalForm := "+4367890", Typ := "Work" }] }

/-- A named record born on 9 March 1990. -/
def personBorn1990 : people.Person :=
  { emptyPerson with
    Names := [sampleName]
    Birthdays := [{ Date := some { Day := 9, Month := 3, Year := 1990 } }] }

/-! ## The escaping rule as the specification words it -/

/-- The substitution `strings.ReplaceAll(s, old, new)` for an `old` of one
character, on code points: every occurrence of `old`, from left to right, is
replaced by `new`. -/
def replaceAllChars (old : Char) (new : List Char) : List Char → List Char
  | [] => []
  | c :: cs => (if c = old then new else [c]) ++ replaceAllChars old new cs

/-- The substitution `strings.ReplaceAll(s, old, new)` for an `old` of one
character. -/
def replaceAll (s : String) (old : Char) (new : String) : String :=
  ⟨replaceAllChars old new.data s.data⟩

/-- The escaping rule in the words of the specification: replace `\` by `\\`
in the whole string, then newline by `\n`, then `,` by `\,`. -/
def escapeSequentially (v : String) : String :=
  replaceAll (replaceAll (replaceAll v '\\' "\\\\") '\n' "\\n") ',' "\\,"

/-- A named record with three name entries. -/
def personThreeNames : people.Person :=
  { emptyPerson with
    Names := [sampleName,
      { DisplayName := "Countess of Lovelace", FamilyName := "King", GivenName := "Augusta",
        HonorificPrefix := "Hon.", HonorificSuffix := "", MiddleName := "Ada" },
      { DisplayName := "AAL", FamilyName := "", GivenName := "", HonorificPrefix := "",
        HonorificSuffix := "", MiddleName := "" }] }

/-- A card as `Add` builds it from the empty card: no key occurs twice and no
key holds an empty slice. -/
def vcard.Card.Built (c : vcard.Card) : Prop :=
  c.WF ∧ ∀ kv ∈ c, kv.2 ≠ []

/-- A named record with three memberships. -/
def personWithMemberships : people.Person :=
  { emptyPerson with
    Names := [sampleName]
    Memberships := [{ ContactGroupMembership := some { ContactGroupResourceName := "g/1" } },
                    { ContactGroupMembership := some { ContactGroupResourceName := "g/9" } },
                    { ContactGroupMembership := some { ContactGroupResourceName := "g/2" } }] }

/-- A lookup table with two groups. -/
def sampleGroups : GroupMap :=
  [("g/1", "Friends"), ("g/2", "Work")]

/-- The pieces of a sequence of code points between the occurrences of the
separator `sep`, as `strings.Split` cuts them: `n` separators give `n + 1`
pieces. -/
def splitChars (sep : Char) : List Char → List (List Char)
  | [] => [[]]
  | c :: cs =>
    if c = sep then [] :: splitChars sep cs
    else
      match splitChars sep cs with
      | [] => [[c]]
      | piece :: pieces => (c :: piece) :: pieces

/-- The `sep`-separated components of a string. -/
def components (s : String) (sep : Char) : List String :=
  (splitChars sep s.data).map String.mk

/-- A named record with two email addresses, two postal addresses, one of
them without a type, and a web link. -/
def personWithAddresses : people.Person :=
  { emptyPerson with
    Names := [sampleName]
    EmailAddresses := [{ Typ := "home", Value := "ada@example.org" },
                       { Typ := "a,b", Value := "lovelace@example.org" }]
    Addresses := [{ City := "Wien", Country := "AT", ExtendedAddress := "", PoBox := "",
                    PostalCode := "1010", Region := "", StreetAddress := "Ring 1",
                    Typ := "home" },
                  { City := "London", Country := "UK", ExtendedAddress := "Flat 2",
                    PoBox := "PO 7", PostalCode := "W1", Region := "Greater London",
                    StreetAddress := "St James Square", Typ := "" }]
    Urls := [{ Typ := "blog", Value := "https://example.org" }] }

/-- The decimal digit `k`, for `k < 10`, as a character. -/
def digitChar (k : Nat) : Char :=
  Char.ofNat (48 + k)

/-- The last `w` decimal digits of `n`, most significant first. -/
def fixedDigits : Nat → Nat → List Char
  | 0, _ => []
  | w + 1, n => fixedDigits w (n / 10) ++ [digitChar (n % 10)]

/-- A named record with two birthday entries. -/
def personTwoBirthdays : people.Person :=
  { emptyPerson with
    Names := [sampleName]
    Birthdays := [{ Date := some { Day := 9, Month := 3, Year := 1990 } },
                  { Date := some { Day := 31, Month := 12, Year := 0 } }] }

/-- The field `f'` is the field `f` with its parameter map visited in another
order: same value, same group, the same parameters in some order. -/
def vcard.Field.Reordered (f f' : vcard.Field) : Prop :=
  f'.Value = f.Value ∧ f'.Group = f.Group ∧ f'.Params.Perm f.Params

/-- The card `c'` is the card `c` with the parameter map of every field
visited in another order. -/
def vcard.Card.ParamsReordered (c c' : vcard.Card) : Prop :=
  List.Forall₂ (fun kv kv' => kv'.1 = kv.1 ∧ List.Forall₂ vcard.Field.Reordered kv.2 kv'.2)
    c c'

/-! ## Reading a failing sink -/

/-- Writes the chunks one after the other with `io.WriteString`, returning at
the first error, as every write site of `Encode` does. -/
def writeAll : List String → Sink → Sink × Option GoError
  | [], w => (w, none)
  | l :: ls, w =>
    match io.WriteString w l with
    | (w, some err) => (w, some err)
    | (w, none) => writeAll ls w

/-- The writes `Encode` attempts, in order, as long as none of them fails. -/
def encodeLines (U : UnicodeTables) (c : vcard.Card) : List String :=
  match c.Get vcard.FieldVersion with
  | none => ["BEGIN:VCARD\r\n"]
  | some version =>
    ["BEGIN:VCARD\r\n", formatLine vcard.FieldVersion version ++ "\r\n"] ++
      ((sort.Strings c.keys).filter
        (fun k => !strings.EqualFold U k vcard.FieldVersion)).flatMap (keyLines U c) ++
      ["END:VCARD\r\n"]

/-- A sink whose third write fails after taking four code points. -/
def sinkFailingThird : Sink :=
  { writes := ["earlier output\r\n"],
    script := [none, none, some { accepted := 4, err := "disk full" }, none] }

/-! ## Reading the line structure -/

/-- The number of occurrences of a carriage return immediately followed by a
line feed. -/
def countCRLF : List Char → Nat
  | [] => 0
  | c :: cs => (if c = '\r' ∧ cs.head? = some '\n' then 1 else 0) + countCRLF cs

/-- Every line feed of the text is immediately preceded by a carriage return. -/
def LFAfterCR (text : List Char) : Prop :=
  ∀ pre post : List Char, text = pre ++ '\n' :: post → ∃ pre', pre = pre' ++ ['\r']

/-- Every comma of the text is immediately preceded by a backslash. -/
def CommaAfterBackslash (text : List Char) : Prop :=
  ∀ pre post : List Char, text = pre ++ ',' :: post → ∃ pre', pre = pre' ++ ['\\']

/-- The total number of field entries under the keys that equal neither
VERSION nor CATEGORIES under case folding. -/
def vcard.Card.plainEntries (U : UnicodeTables) (c : vcard.Card) : Nat :=
  ((c.filter (fun kv => !strings.EqualFold U kv.1 vcard.FieldVersion &&
    !strings.EqualFold U kv.1 vcard.FieldCategories)).map (fun kv => kv.2.length)).sum

/-- The number of keys that equal CATEGORIES under case folding. -/
def vcard.Card.categoriesKeys (U : UnicodeTables) (c : vcard.Card) : Nat :=
  (c.filter (fun kv => strings.EqualFold U kv.1 vcard.FieldCategories)).length

/-- A card with a lower-case version key, two CATEGORIES keys and values that
hold line feeds, commas and carriage returns. -/
def cardWithOddValues : vcard.Card :=
  [("VERSION", [{ Value := "3.0", Params := [], Group := "" }]),
   ("version", [{ Value := "ignored", Params := [], Group := "" }]),
   ("NOTE", [{ Value := "line one\nline two\r", Params := [("X-A", ["p,q\n"])], Group := "g" },
             { Value := "a,b", Params := [], Group := "" }]),
   ("CATEGORIES", [{ Value := "Friends", Params := [], Group := "" },
                   { Value := "Work\n", Params := [], Group := "" }]),
   ("categories", [])]

/-- A named record whose only postal address has a street that holds a `;`. -/
def personSemicolonStreet : people.Person :=
  { emptyPerson with
    Names := [sampleName]
    Addresses := [{ City := "Wien", Country := "AT", ExtendedAddress := "", PoBox := "",
                    PostalCode := "1010", Region := "", StreetAddress := "Ring 1; Top 3",
                    Typ := "home" }] }

/-! # Properties -/

/-! ## Ordering of strings -/

theorem runesLess_irrefl (a : List Char) : runesLess a a = false := by
  induction a with
  | nil => rfl
  | cons c cs ih => simp [runesLess, ih]

theorem runesLess_trans {a b c : List Char} :
    runesLess a b = true → runesLess b c = true → runesLess a c = true := by
  induction a generalizing b c with
  | nil =>
    cases b with
    | nil => simp [runesLess]
    | cons y ys =>
      cases c with
      | nil => simp [runesLess]
      | cons z zs => simp [runesLess]
  | cons x xs ih =>
    cases b with
    | nil => simp [runesLess]
    | cons y ys =>
      cases c with
      | nil => simp [runesLess]
      | cons z zs =>
        simp only [runesLess]
        intro h1 h2
        split_ifs at h1 h2 ⊢ <;> first | rfl | omega | (exact ih h1 h2)

theorem runesLess_total (a b : List Char) :
    runesLess a b = true ∨ a = b ∨ runesLess b a = true := by
  induction a generalizing b with
  | nil =>
    cases b with
    | nil => simp
    | cons y ys => simp [runesLess]
  | cons x xs ih =>
    cases b with
    | nil => simp [runesLess]
    | cons y ys =>
      simp only [runesLess]
      by_cases h1 : x.toNat < y.toNat
      · simp [h1]
      · by_cases h2 : y.toNat < x.toNat
        · simp [h2, h1]
        · have hxy : x = y := by
            apply Char.ext
            apply UInt32.ext
            have : x.toNat = y.toNat := by omega
            exact this
          subst hxy
          simp
          rcases ih ys with h | h | h
          · exact Or.inl h
          · exact Or.inr (Or.inl h)
          · exact Or.inr (Or.inr h)

/-! ## Escaping round trip -/

theorem unescapeChars_replaceChars (v : List Char) :
    unescapeChars (replaceChars v) = v := by
  induction v with
  | nil => rfl
  | cons c cs ih =>
    by_cases h1 : c = '\\'
    · subst h1
      simp [replaceChars, valueFormatter, unescapeChars, ih]
    · by_cases h2 : c = '\n'
      · subst h2
        simp [replaceChars, valueFormatter, unescapeChars, ih]
      · by_cases h3 : c = ','
        · subst h3
          simp [replaceChars, valueFormatter, unescapeChars, ih]
        · have hc : replaceChars (c :: cs) = c :: replaceChars cs := by
            simp [replaceChars, valueFormatter, h1, h2, h3]
          rw [hc]
          cases hr : replaceChars cs with
          | nil =>
            rw [hr] at ih
            simp [unescapeChars] at ih ⊢
            exact ih
          | cons d rest =>
            rw [hr] at ih
            simp [unescapeChars, h1, ih]

theorem unescape_formatValue (v : String) : unescape (formatValue v) = v := by
  cases v with
  | mk cs => simp [unescape, formatValue, unescapeChars_replaceChars]

/-- C1: `formatValue` is losslessly invertible.  The left-to-right unescape
function of the specification recovers every string from its escaped form,
hence `formatValue` is injective, and a literal backslash followed by `n` and a
real newline do not escape to the same text. -/
theorem formatValue_lossless :
    (∀ v : String, unescape (formatValue v) = v) ∧
    Function.Injective formatValue ∧
    formatValue "\\n" ≠ formatValue "\n" := by
  refine ⟨unescape_formatValue, ?_, by decide⟩
  intro a b h
  have := congrArg unescape h
  simpa [unescape_formatValue] using this

/-! ## The sink -/

theorem Sink.push_nil (w : Sink) : w.push [] = w := by
  cases w
  simp [Sink.push]

theorem Sink.push_push (w : Sink) (a b : List String) :
    (w.push a).push b = w.push (a ++ b) := by
  simp [Sink.push, List.drop_drop, Nat.add_comm]

theorem Sink.reliable_push {w : Sink} (h : w.reliable) (a : List String) :
    (w.push a).reliable := by
  intro o ho
  exact h o (List.mem_of_mem_drop ho)

theorem WriteString_reliable {w : Sink} (h : w.reliable) (s : String) :
    io.WriteString w s = (w.push [s], none) := by
  cases w with
  | mk writes script =>
    cases script with
    | nil => simp [io.WriteString, Sink.push]
    | cons o rest =>
      have ho : o = none := h o (by simp)
      subst ho
      simp [io.WriteString, Sink.push]

theorem writeFields_reliable (k : String) (fs : List vcard.Field) {w : Sink}
    (h : w.reliable) :
    writeFields k fs w = (w.push (fs.map (fun f => formatLine k f ++ "\r\n")), none) := by
  induction fs generalizing w with
  | nil => simp [writeFields, Sink.push_nil]
  | cons f fs ih =>
    simp only [writeFields, WriteString_reliable h]
    rw [ih (Sink.reliable_push h _), Sink.push_push]
    simp

/-- The keys whose lines the loop of `Encode` writes: those that do not equal
`VERSION` under case folding. -/
theorem writeKeys_reliable (U : UnicodeTables) (c : vcard.Card) (ks : List String) {w : Sink}
    (h : w.reliable) :
    writeKeys U c ks w =
      (w.push ((ks.filter (fun k => !strings.EqualFold U k vcard.FieldVersion)).flatMap
        (keyLines U c)), none) := by
  induction ks generalizing w with
  | nil => simp [writeKeys, Sink.push_nil]
  | cons k ks ih =>
    by_cases hv : strings.EqualFold U k vcard.FieldVersion = true
    · simp [writeKeys, hv, ih h]
    · by_cases hc : strings.EqualFold U k vcard.FieldCategories = true
      · simp only [writeKeys, hv, hc, WriteString_reliable h]
        rw [ih (Sink.reliable_push h _), Sink.push_push]
        simp [hv, keyLines, hc]
      · simp only [writeKeys, hv, hc, writeFields_reliable k _ h]
        rw [ih (Sink.reliable_push h _), Sink.push_push]
        simp [hv, keyLines, hc]

theorem Encode_reliable_missing (U : UnicodeTables) (enc : Encoder) (c : vcard.Card)
    (hw : enc.w.reliable) (hv : c.Get vcard.FieldVersion = none) :
    enc.Encode U c =
      ({ w := enc.w.push ["BEGIN:VCARD\r\n"] }, some "vcard: VERSION field missing") := by
  simp [Encoder.Encode, WriteString_reliable hw, hv]

theorem Encode_reliable_present (U : UnicodeTables) (enc : Encoder) (c : vcard.Card)
    (version : vcard.Field) (hw : enc.w.reliable)
    (hv : c.Get vcard.FieldVersion = some version) :
    enc.Encode U c =
      ({ w := enc.w.push
          (["BEGIN:VCARD\r\n", formatLine vcard.FieldVersion version ++ "\r\n"] ++
            ((sort.Strings c.keys).filter
              (fun k => !strings.EqualFold U k vcard.FieldVersion)).flatMap (keyLines U c) ++
            ["END:VCARD\r\n"]) }, none) := by
  have h1 := Sink.reliable_push hw ["BEGIN:VCARD\r\n"]
  have h2 := Sink.reliable_push h1 [formatLine vcard.FieldVersion version ++ "\r\n"]
  simp only [Encoder.Encode, WriteString_reliable hw, hv, WriteString_reliable h1,
    writeKeys_reliable U c _ h2]
  rw [WriteString_reliable (Sink.reliable_push h2 _)]
  simp [Sink.push_push]

/-! ## Sorting the keys -/

theorem stringLess_irrefl (a : String) : stringLess a a = false :=
  runesLess_irrefl a.data

theorem stringLess_trans {a b c : String} (h1 : stringLess a b = true)
    (h2 : stringLess b c = true) : stringLess a c = true :=
  runesLess_trans h1 h2

theorem stringLess_total (a b : String) :
    stringLess a b = true ∨ a = b ∨ stringLess b a = true := by
  rcases runesLess_total a.data b.data with h | h | h
  · exact Or.inl h
  · exact Or.inr (Or.inl (String.ext h))
  · exact Or.inr (Or.inr h)

theorem stringLess_asymm {a b : String} (h : stringLess a b = true) :
    stringLess b a = false := by
  cases hba : stringLess b a with
  | false => rfl
  | true =>
    have := stringLess_trans h hba
    rw [stringLess_irrefl] at this
    cases this

instance : IsTotal String stringLE where
  total a b := by
    unfold stringLE
    cases hab : stringLess a b with
    | false => exact Or.inr rfl
    | true => exact Or.inl (stringLess_asymm hab)

instance : IsTrans String stringLE where
  trans a b c hab hbc := by
    unfold stringLE at *
    cases hca : stringLess c a with
    | false => rfl
    | true =>
      rcases stringLess_total a b with h | h | h
      · have := stringLess_trans hca h
        rw [hbc] at this
        cases this
      · subst h
        rw [hbc] at hca
        cases hca
      · rw [hab] at h
        cases h

instance : IsAntisymm String stringLE where
  antisymm a b hab hba := by
    unfold stringLE at *
    rcases stringLess_total a b with h | h | h
    · rw [hba] at h
      cases h
    · exact h
    · rw [hab] at h
      cases h

theorem sort_Strings_perm (ks : List String) : (sort.Strings ks).Perm ks :=
  List.perm_insertionSort stringLE ks

theorem sort_Strings_sorted (ks : List String) : (sort.Strings ks).Sorted stringLE :=
  List.sorted_insertionSort stringLE ks

theorem sort_Strings_mem {ks : List String} {k : String} : k ∈ sort.Strings ks ↔ k ∈ ks :=
  (sort_Strings_perm ks).mem_iff

theorem sort_Strings_congr {ks ks' : List String} (h : ks'.Perm ks) :
    sort.Strings ks' = sort.Strings ks :=
  List.eq_of_perm_of_sorted
    (((sort_Strings_perm ks').trans h).trans (sort_Strings_perm ks).symm)
    (sort_Strings_sorted ks') (sort_Strings_sorted ks)

theorem sort_Strings_strict {ks : List String} (h : ks.Nodup) :
    StrictlyAscending (sort.Strings ks) := by
  have hn : (sort.Strings ks).Nodup := (sort_Strings_perm ks).nodup_iff.mpr h
  have hs : (sort.Strings ks).Pairwise stringLE := sort_Strings_sorted ks
  refine (hs.and hn).imp ?_
  intro a b hab
  rcases stringLess_total a b with h | h | h
  · exact h
  · exact absurd h hab.2
  · have := hab.1
    unfold stringLE at this
    rw [this] at h
    cases h

theorem StrictlyAscending.nodup {ks : List String} (h : StrictlyAscending ks) : ks.Nodup := by
  refine List.Pairwise.imp ?_ h
  intro a b hab heq
  subst heq
  rw [stringLess_irrefl] at hab
  cases hab

/-! ## Association lists as maps -/

theorem mapIndex_of_not_mem {α : Type} (m : List (String × List α)) (k : String)
    (h : k ∉ m.map Prod.fst) : mapIndex m k = [] := by
  induction m with
  | nil => rfl
  | cons kv rest ih =>
    obtain ⟨k', vs⟩ := kv
    simp only [List.map_cons, List.mem_cons, not_or] at h
    have hne : ¬ k' = k := fun e => h.1 e.symm
    simp [mapIndex, hne, ih h.2]

theorem mapIndex_of_mem {α : Type} (m : List (String × List α)) (k : String) (vs : List α)
    (hnd : (m.map Prod.fst).Nodup) (h : (k, vs) ∈ m) : mapIndex m k = vs := by
  induction m with
  | nil => cases h
  | cons kv rest ih =>
    obtain ⟨k', vs'⟩ := kv
    simp only [List.map_cons, List.nodup_cons] at hnd
    rcases List.mem_cons.mp h with h | h
    · cases h
      simp [mapIndex]
    · have hk : k ∈ rest.map Prod.fst := List.mem_map.mpr ⟨(k, vs), h, rfl⟩
      have hne : ¬ k' = k := fun e => hnd.1 (e ▸ hk)
      simp [mapIndex, hne, ih hnd.2 h]

theorem mem_keys_of_mapIndex_ne_nil {α : Type} (m : List (String × List α)) (k : String)
    (h : mapIndex m k ≠ []) : k ∈ m.map Prod.fst := by
  by_contra hk
  exact h (mapIndex_of_not_mem m k hk)

theorem mapIndex_perm {α : Type} {m m' : List (String × List α)} (hp : m'.Perm m)
    (hnd : (m.map Prod.fst).Nodup) (k : String) : mapIndex m' k = mapIndex m k := by
  have hnd' : (m'.map Prod.fst).Nodup := (hp.map Prod.fst).nodup_iff.mpr hnd
  by_cases hk : k ∈ m.map Prod.fst
  · obtain ⟨kv, hkv, rfl⟩ := List.mem_map.mp hk
    rw [mapIndex_of_mem m kv.1 kv.2 hnd hkv, mapIndex_of_mem m' kv.1 kv.2 hnd' (hp.mem_iff.mpr hkv)]
  · have hk' : k ∉ m'.map Prod.fst := fun h => hk ((hp.map Prod.fst).mem_iff.mp h)
    rw [mapIndex_of_not_mem m k hk, mapIndex_of_not_mem m' k hk']

/-! ## The encoder depends on the card as a map only -/

theorem writeKeys_congr (U : UnicodeTables) {c c' : vcard.Card}
    (h : ∀ k, c'.index k = c.index k) (ks : List String) (w : Sink) :
    writeKeys U c' ks w = writeKeys U c ks w := by
  induction ks generalizing w with
  | nil => rfl
  | cons k ks ih => simp [writeKeys, h, ih]

theorem Encode_congr (U : UnicodeTables) (enc : Encoder) {c c' : vcard.Card}
    (h : ∀ k, c'.index k = c.index k)
    (hk : sort.Strings c'.keys = sort.Strings c.keys) :
    enc.Encode U c' = enc.Encode U c := by
  simp [Encoder.Encode, vcard.Card.Get, h, hk, writeKeys_congr U h]

theorem Encode_perm (U : UnicodeTables) (enc : Encoder) {c c' : vcard.Card}
    (hwf : c.WF) (hp : c'.Perm c) : enc.Encode U c' = enc.Encode U c :=
  Encode_congr U enc (fun k => mapIndex_perm hp hwf k)
    (sort_Strings_congr (hp.map Prod.fst))

theorem Get_eq_none_iff (c : vcard.Card) (k : String) : c.Get k = none ↔ c.index k = [] := by
  unfold vcard.Card.Get
  cases c.index k <;> simp

theorem join_append_singleton (l : List String) (s : String) :
    String.join (l ++ [s]) = String.join l ++ s := by
  simp [String.join, List.foldl_append]

/-! ## Claims about the encoder -/

/-- C2: for a card with no field stored under the key VERSION and a sink whose
writes succeed, `Encode` returns an error and what it has written to the sink
is exactly the line `BEGIN:VCARD` with its CRLF, and nothing else. -/
theorem Encode_without_version (U : UnicodeTables) (enc : Encoder) (c : vcard.Card)
    (hw : enc.w.reliable) (hv : c.index vcard.FieldVersion = []) :
    (enc.Encode U c).2 = some "vcard: VERSION field missing" ∧
    (enc.Encode U c).1.w.writes = enc.w.writes ++ ["BEGIN:VCARD\r\n"] ∧
    (enc.Encode U c).1.w.bytes = enc.w.bytes ++ "BEGIN:VCARD\r\n" := by
  rw [Encode_reliable_missing U enc c hw ((Get_eq_none_iff c _).mpr hv)]
  refine ⟨rfl, rfl, ?_⟩
  simp [Sink.bytes, Sink.push, join_append_singleton]

theorem Encode_without_version_witness :
    ((NewEncoder Sink.fresh).Encode UnicodeTables.caseless cardWithoutVersion).2
        = some "vcard: VERSION field missing" ∧
    ((NewEncoder Sink.fresh).Encode UnicodeTables.caseless cardWithoutVersion).1.w.writes
        = Sink.fresh.writes ++ ["BEGIN:VCARD\r\n"] ∧
    ((NewEncoder Sink.fresh).Encode UnicodeTables.caseless cardWithoutVersion).1.w.bytes
        = Sink.fresh.bytes ++ "BEGIN:VCARD\r\n" :=
  Encode_without_version UnicodeTables.caseless (NewEncoder Sink.fresh) cardWithoutVersion
    (by decide) (by decide)

theorem bodyKeys_strict (U : UnicodeTables) {c : vcard.Card} (hwf : c.WF) :
    StrictlyAscending
      ((sort.Strings c.keys).filter (fun k => !strings.EqualFold U k vcard.FieldVersion)) :=
  List.Pairwise.filter _ (sort_Strings_strict hwf)

theorem mem_bodyKeys (U : UnicodeTables) (c : vcard.Card) (k : String) :
    k ∈ (sort.Strings c.keys).filter (fun k => !strings.EqualFold U k vcard.FieldVersion) ↔
      k ∈ c.keys ∧ strings.EqualFold U k vcard.FieldVersion = false := by
  simp [List.mem_filter, sort_Strings_mem]

/-- C3: for a card with a VERSION field and a sink whose writes succeed, the
lines written between the VERSION line and the END:VCARD line are the lines of
the card's keys (those not skipped as VERSION), key after key, the keys in
strictly ascending code-point order; the result does not depend on the order
in which the keys were inserted. -/
theorem Encode_body_in_key_order (U : UnicodeTables) (enc : Encoder) (c : vcard.Card)
    (version : vcard.Field) (hw : enc.w.reliable) (hwf : c.WF)
    (hv : c.Get vcard.FieldVersion = some version) :
    ∃ ks : List String,
      StrictlyAscending ks ∧
      (∀ k, k ∈ ks ↔ k ∈ c.keys ∧ strings.EqualFold U k vcard.FieldVersion = false) ∧
      (enc.Encode U c).2 = none ∧
      (enc.Encode U c).1.w.writes =
        enc.w.writes ++ ["BEGIN:VCARD\r\n", formatLine vcard.FieldVersion version ++ "\r\n"] ++
          ks.flatMap (keyLines U c) ++ ["END:VCARD\r\n"] ∧
      ∀ c' : vcard.Card, c'.Perm c → enc.Encode U c' = enc.Encode U c := by
  refine ⟨_, bodyKeys_strict U hwf, mem_bodyKeys U c, ?_, ?_, fun c' hp => Encode_perm U enc hwf hp⟩
  · rw [Encode_reliable_present U enc c version hw hv]
  · rw [Encode_reliable_present U enc c version hw hv]
    simp [Sink.push]

theorem Encode_body_in_key_order_witness :
    ((NewEncoder Sink.fresh).Encode UnicodeTables.caseless sampleCard).1.w.writes =
      ["BEGIN:VCARD\r\n", "VERSION:3.0\r\n", "ADR:;;Ring 1;Wien;;1010;AT\r\n",
        "EMAIL;TYPE=INTERNET;TYPE=HOME:ada@example.org\r\n", "FN:Ada L\r\n", "END:VCARD\r\n"] ∧
    ∃ ks : List String,
      StrictlyAscending ks ∧
      (∀ k, k ∈ ks ↔ k ∈ sampleCard.keys ∧
        strings.EqualFold UnicodeTables.caseless k vcard.FieldVersion = false) ∧
      ((NewEncoder Sink.fresh).Encode UnicodeTables.caseless sampleCard).2 = none ∧
      ((NewEncoder Sink.fresh).Encode UnicodeTables.caseless sampleCard).1.w.writes =
        (NewEncoder Sink.fresh).w.writes ++
          ["BEGIN:VCARD\r\n",
            formatLine vcard.FieldVersion { Value := "3.0", Params := [], Group := "" } ++ "\r\n"] ++
          ks.flatMap (keyLines UnicodeTables.caseless sampleCard) ++ ["END:VCARD\r\n"] ∧
      ∀ c' : vcard.Card, c'.Perm sampleCard →
        (NewEncoder Sink.fresh).Encode UnicodeTables.caseless c' =
          (NewEncoder Sink.fresh).Encode UnicodeTables.caseless sampleCard :=
  ⟨by decide,
    Encode_body_in_key_order UnicodeTables.caseless (NewEncoder Sink.fresh) sampleCard
      { Value := "3.0", Params := [], Group := "" } (by decide) (by decide) (by decide)⟩

/-- C10, the claim fails: the VERSION key of this card holds two entries, yet
`Encode` returns no error; it writes the first entry and drops the second. -/
theorem Encode_two_versions_succeeds :
    (cardWithTwoVersions.index vcard.FieldVersion).length = 2 ∧
    ((NewEncoder Sink.fresh).Encode UnicodeTables.caseless cardWithTwoVersions).2 = none ∧
    ((NewEncoder Sink.fresh).Encode UnicodeTables.caseless cardWithTwoVersions).1.w.writes =
      ["BEGIN:VCARD\r\n", "VERSION:3.0\r\n", "FN:Ada L\r\n", "END:VCARD\r\n"] := by
  decide

/-- C10, amended: `Encode` returns an error for every card that has no field
under VERSION, on every sink; on a sink whose writes succeed it returns an
error for no other card.  When the VERSION key holds one or more entries,
`Encode` on such a sink returns no error and writes BEGIN:VCARD, the line of
the first VERSION entry, the lines of the keys that do not equal VERSION under
case folding, in sorted order, and END:VCARD; the key VERSION is none of these
keys, so its further entries are not written. -/
theorem Encode_error_iff_no_version (U : UnicodeTables) (enc : Encoder) (c : vcard.Card)
    (hw : enc.w.reliable) :
    (∀ enc' : Encoder, c.index vcard.FieldVersion = [] → (enc'.Encode U c).2 ≠ none) ∧
    ((enc.Encode U c).2 ≠ none ↔ c.index vcard.FieldVersion = []) ∧
    ∀ v vs, c.index vcard.FieldVersion = v :: vs →
      (enc.Encode U c).2 = none ∧
      ∃ ks : List String,
        ks = (sort.Strings c.keys).filter
          (fun k => !strings.EqualFold U k vcard.FieldVersion) ∧
        (∀ k, k ∈ ks ↔ k ∈ c.keys ∧ strings.EqualFold U k vcard.FieldVersion = false) ∧
        vcard.FieldVersion ∉ ks ∧
        (enc.Encode U c).1.w.writes =
          enc.w.writes ++ ["BEGIN:VCARD\r\n", formatLine vcard.FieldVersion v ++ "\r\n"] ++
            ks.flatMap (keyLines U c) ++ ["END:VCARD\r\n"] := by
  have key : ∀ v vs, c.index vcard.FieldVersion = v :: vs →
      (enc.Encode U c).2 = none ∧
      ∃ ks : List String,
        ks = (sort.Strings c.keys).filter
          (fun k => !strings.EqualFold U k vcard.FieldVersion) ∧
        (∀ k, k ∈ ks ↔ k ∈ c.keys ∧ strings.EqualFold U k vcard.FieldVersion = false) ∧
        vcard.FieldVersion ∉ ks ∧
        (enc.Encode U c).1.w.writes =
          enc.w.writes ++ ["BEGIN:VCARD\r\n", formatLine vcard.FieldVersion v ++ "\r\n"] ++
            ks.flatMap (keyLines U c) ++ ["END:VCARD\r\n"] := by
    intro v vs hidx
    have hv : c.Get vcard.FieldVersion = some v := by simp [vcard.Card.Get, hidx]
    rw [Encode_reliable_present U enc c v hw hv]
    refine ⟨rfl, _, rfl, mem_bodyKeys U c, ?_, by simp [Sink.push]⟩
    intro hmem
    have hfold := ((mem_bodyKeys U c vcard.FieldVersion).mp hmem).2
    have htrue : strings.EqualFold U vcard.FieldVersion vcard.FieldVersion = true := rfl
    rw [htrue] at hfold
    cases hfold
  refine ⟨fun enc' hidx => ?_, ⟨fun herr => ?_, fun hidx => ?_⟩, key⟩
  · have hv : c.Get vcard.FieldVersion = none := (Get_eq_none_iff c _).mpr hidx
    simp only [Encoder.Encode, hv]
    rcases io.WriteString enc'.w "BEGIN:VCARD\r\n" with ⟨w1, _ | err⟩ <;> simp
  · cases hidx : c.index vcard.FieldVersion with
    | nil => rfl
    | cons v vs => exact absurd (key v vs hidx).1 herr
  · rw [Encode_reliable_missing U enc c hw ((Get_eq_none_iff c _).mpr hidx)]
    simp

theorem Encode_error_iff_no_version_witness :
    (∀ enc' : Encoder, cardWithTwoVersions.index vcard.FieldVersion = [] →
      (enc'.Encode UnicodeTables.caseless cardWithTwoVersions).2 ≠ none) ∧
    (((NewEncoder Sink.fresh).Encode UnicodeTables.caseless cardWithTwoVersions).2 ≠ none ↔
      cardWithTwoVersions.index vcard.FieldVersion = []) ∧
    ∀ v vs, cardWithTwoVersions.index vcard.FieldVersion = v :: vs →
      ((NewEncoder Sink.fresh).Encode UnicodeTables.caseless cardWithTwoVersions).2 = none ∧
      ∃ ks : List String,
        ks = (sort.Strings cardWithTwoVersions.keys).filter
          (fun k => !strings.EqualFold UnicodeTables.caseless k vcard.FieldVersion) ∧
        (∀ k, k ∈ ks ↔ k ∈ cardWithTwoVersions.keys ∧
          strings.EqualFold UnicodeTables.caseless k vcard.FieldVersion = false) ∧
        vcard.FieldVersion ∉ ks ∧
        ((NewEncoder Sink.fresh).Encode UnicodeTables.caseless cardWithTwoVersions).1.w.writes =
          (NewEncoder Sink.fresh).w.writes ++
            ["BEGIN:VCARD\r\n", formatLine vcard.FieldVersion v ++ "\r\n"] ++
            ks.flatMap (keyLines UnicodeTables.caseless cardWithTwoVersions) ++
            ["END:VCARD\r\n"] :=
  Encode_error_iff_no_version UnicodeTables.caseless (NewEncoder Sink.fresh) cardWithTwoVersions
    (by decide)

/-! ## Escaped text holds no line feed -/

theorem valueFormatter_no_lf (c : Char) : '\n' ∉ valueFormatter c := by
  unfold valueFormatter
  split_ifs with h1 h2 h3
  · decide
  · decide
  · decide
  · simpa using fun h => h2 h.symm

theorem replaceChars_no_lf (cs : List Char) : '\n' ∉ replaceChars cs := by
  induction cs with
  | nil => simp [replaceChars]
  | cons c cs ih =>
    simp only [replaceChars, List.mem_append, not_or]
    exact ⟨valueFormatter_no_lf c, ih⟩

theorem formatValue_no_lf (v : String) : '\n' ∉ (formatValue v).data :=
  replaceChars_no_lf v.data

theorem Join_no_lf (vals : List String) (sep : String) (hv : ∀ v ∈ vals, '\n' ∉ v.data)
    (hs : '\n' ∉ sep.data) : '\n' ∉ (strings.Join vals sep).data := by
  induction vals with
  | nil => simp [strings.Join]
  | cons a rest ih =>
    cases rest with
    | nil => simpa [strings.Join] using hv a (by simp)
    | cons b rest =>
      simp only [strings.Join, String.data_append, List.mem_append, not_or]
      exact ⟨⟨hv a (by simp), hs⟩, ih (fun v hv' => hv v (List.mem_cons_of_mem _ hv'))⟩

theorem formatLineMultiValue_categories (fields : List vcard.Field) :
    formatLineMultiValue vcard.FieldCategories fields =
      "CATEGORIES:" ++ strings.Join (fields.map (fun f => formatValue f.Value)) "," := by
  simp only [formatLineMultiValue, String.empty_append]
  rw [← String.append_assoc]
  rfl

/-- C4: for a card with a VERSION field whose CATEGORIES key holds at least one
entry, `Encode` (on a sink whose writes succeed) writes for that key exactly
one line, between the lines of the smaller keys and those of the larger keys:
`CATEGORIES:` followed by the escaped values of the entries joined by `,` and
CRLF, without the entries' params or group; the text before the CRLF holds no
line feed. -/
theorem Encode_categories_one_line (U : UnicodeTables) (enc : Encoder) (c : vcard.Card)
    (version : vcard.Field) (hw : enc.w.reliable) (hwf : c.WF)
    (hv : c.Get vcard.FieldVersion = some version)
    (hne : c.index vcard.FieldCategories ≠ []) :
    ∃ lo hi : List String,
      StrictlyAscending (lo ++ vcard.FieldCategories :: hi) ∧
      (∀ k, k ∈ lo ++ vcard.FieldCategories :: hi ↔
        k ∈ c.keys ∧ strings.EqualFold U k vcard.FieldVersion = false) ∧
      (enc.Encode U c).2 = none ∧
      (enc.Encode U c).1.w.writes =
        enc.w.writes ++ ["BEGIN:VCARD\r\n", formatLine vcard.FieldVersion version ++ "\r\n"] ++
          lo.flatMap (keyLines U c) ++
          ["CATEGORIES:" ++
            strings.Join ((c.index vcard.FieldCategories).map (fun f => formatValue f.Value)) ","
            ++ "\r\n"] ++
          hi.flatMap (keyLines U c) ++ ["END:VCARD\r\n"] ∧
      '\n' ∉ ("CATEGORIES:" ++
        strings.Join ((c.index vcard.FieldCategories).map (fun f => formatValue f.Value))
          ",").data := by
  have hmem : vcard.FieldCategories ∈
      (sort.Strings c.keys).filter (fun k => !strings.EqualFold U k vcard.FieldVersion) :=
    (mem_bodyKeys U c _).mpr ⟨mem_keys_of_mapIndex_ne_nil c _ hne, rfl⟩
  obtain ⟨lo, hi, hsplit⟩ := List.append_of_mem hmem
  have hlines : keyLines U c vcard.FieldCategories =
      ["CATEGORIES:" ++
        strings.Join ((c.index vcard.FieldCategories).map (fun f => formatValue f.Value)) ","
        ++ "\r\n"] := by
    have hfold : strings.EqualFold U vcard.FieldCategories vcard.FieldCategories = true := rfl
    simp [keyLines, hfold, formatLineMultiValue_categories]
  refine ⟨lo, hi, hsplit ▸ bodyKeys_strict U hwf, ?_, ?_, ?_, ?_⟩
  · intro k
    rw [← hsplit]
    exact mem_bodyKeys U c k
  · rw [Encode_reliable_present U enc c version hw hv]
  · rw [Encode_reliable_present U enc c version hw hv, hsplit]
    simp [Sink.push, List.flatMap_append, hlines]
  · simp only [String.data_append, List.mem_append, not_or]
    refine ⟨by decide, Join_no_lf _ _ ?_ (by decide)⟩
    intro v hv'
    obtain ⟨f, _, rfl⟩ := List.mem_map.mp hv'
    exact formatValue_no_lf _

theorem Encode_categories_one_line_witness :
    ((NewEncoder Sink.fresh).Encode UnicodeTables.caseless cardWithCategories).1.w.writes =
      ["BEGIN:VCARD\r\n", "VERSION:3.0\r\n", "CATEGORIES:Friends,Work\r\n",
        "EMAIL:ada@example.org\r\n", "FN:Ada L\r\n", "END:VCARD\r\n"] ∧
    ∃ lo hi : List String,
      StrictlyAscending (lo ++ vcard.FieldCategories :: hi) ∧
      (∀ k, k ∈ lo ++ vcard.FieldCategories :: hi ↔
        k ∈ cardWithCategories.keys ∧
          strings.EqualFold UnicodeTables.caseless k vcard.FieldVersion = false) ∧
      ((NewEncoder Sink.fresh).Encode UnicodeTables.caseless cardWithCategories).2 = none ∧
      ((NewEncoder Sink.fresh).Encode UnicodeTables.caseless cardWithCategories).1.w.writes =
        (NewEncoder Sink.fresh).w.writes ++
          ["BEGIN:VCARD\r\n",
            formatLine vcard.FieldVersion { Value := "3.0", Params := [], Group := "" } ++ "\r\n"] ++
          lo.flatMap (keyLines UnicodeTables.caseless cardWithCategories) ++
          ["CATEGORIES:" ++
            strings.Join ((cardWithCategories.index vcard.FieldCategories).map
              (fun f => formatValue f.Value)) "," ++ "\r\n"] ++
          hi.flatMap (keyLines UnicodeTables.caseless cardWithCategories) ++ ["END:VCARD\r\n"] ∧
      '\n' ∉ ("CATEGORIES:" ++
        strings.Join ((cardWithCategories.index vcard.FieldCategories).map
          (fun f => formatValue f.Value)) ",").data :=
  ⟨by decide,
    Encode_categories_one_line UnicodeTables.caseless (NewEncoder Sink.fresh) cardWithCategories
      { Value := "3.0", Params := [], Group := "" } (by decide) (by decide) (by decide)
      (by decide)⟩

/-! ## The mapper, key by key -/

theorem mapIndex_mapAppend {α : Type} (m : List (String × List α)) (k k' : String) (x : α) :
    mapIndex (mapAppend m k x) k' = mapIndex m k' ++ (if k' = k then [x] else []) := by
  induction m with
  | nil =>
    by_cases h : k = k'
    · subst h
      simp [mapAppend, mapIndex]
    · have h' : ¬ k' = k := fun e => h e.symm
      simp [mapAppend, mapIndex, h, h']
  | cons kv rest ih =>
    obtain ⟨k0, vs⟩ := kv
    by_cases h0 : k0 = k
    · subst h0
      by_cases h : k0 = k'
      · subst h
        simp [mapAppend, mapIndex]
      · have h' : ¬ k' = k0 := fun e => h e.symm
        simp [mapAppend, mapIndex, h, h']
    · by_cases h : k0 = k'
      · subst h
        simp [mapAppend, mapIndex, h0]
      · simp [mapAppend, mapIndex, h0, h, ih]

theorem index_Add (c : vcard.Card) (k k' : String) (f : vcard.Field) :
    (c.Add k f).index k' = c.index k' ++ (if k' = k then [f] else []) :=
  mapIndex_mapAppend c k k' f

theorem index_foldl_Add {α : Type} (g : α → vcard.Field) (k k' : String) (xs : List α)
    (c : vcard.Card) :
    (xs.foldl (fun c x => c.Add k (g x)) c).index k' =
      c.index k' ++ (if k' = k then xs.map g else []) := by
  induction xs generalizing c with
  | nil => simp
  | cons x xs ih =>
    rw [List.foldl_cons, ih, index_Add]
    by_cases h : k' = k <;> simp [h]

theorem addMemberships_of_set (groupMap : GroupMap) (ms : List people.Membership)
    (cgms : List people.ContactGroupMembership) (card : vcard.Card)
    (h : ms.map (fun m => m.ContactGroupMembership) = cgms.map some) :
    addMemberships groupMap ms card =
      .done (cgms.foldl (fun card cgm =>
        card.AddValue vcard.FieldCategories (groupMap.index cgm.ContactGroupResourceName))
        card) := by
  induction ms generalizing cgms card with
  | nil =>
    cases cgms with
    | nil => rfl
    | cons _ _ => simp at h
  | cons m ms ih =>
    cases cgms with
    | nil => simp at h
    | cons cgm cgms =>
      simp only [List.map_cons, List.cons.injEq] at h
      simp only [addMemberships, h.1, List.foldl_cons]
      exact ih cgms _ h.2

theorem addMemberships_done (groupMap : GroupMap) (ms : List people.Membership)
    (card card' : vcard.Card) (h : addMemberships groupMap ms card = .done card') :
    ∃ cgms : List people.ContactGroupMembership,
      ms.map (fun m => m.ContactGroupMembership) = cgms.map some := by
  induction ms generalizing card with
  | nil => exact ⟨[], rfl⟩
  | cons m ms ih =>
    cases hm : m.ContactGroupMembership with
    | none => simp [addMemberships, hm] at h
    | some cgm =>
      simp only [addMemberships, hm] at h
      obtain ⟨cgms, hc⟩ := ih _ h
      exact ⟨cgm :: cgms, by simp [hm, hc]⟩

theorem addBirthdays_of_set (bs : List people.Birthday) (dates : List people.Date)
    (card : vcard.Card) (h : bs.map (fun b => b.Date) = dates.map some) :
    addBirthdays bs card =
      .done (dates.foldl (fun card date =>
        card.AddValue vcard.FieldBirthday (birthdayValue date)) card) := by
  induction bs generalizing dates card with
  | nil =>
    cases dates with
    | nil => rfl
    | cons _ _ => simp at h
  | cons b bs ih =>
    cases dates with
    | nil => simp at h
    | cons d dates =>
      simp only [List.map_cons, List.cons.injEq] at h
      simp only [addBirthdays, h.1, List.foldl_cons]
      exact ih dates _ h.2

theorem addBirthdays_done (bs : List people.Birthday) (card card' : vcard.Card)
    (h : addBirthdays bs card = .done card') :
    ∃ dates : List people.Date, bs.map (fun b => b.Date) = dates.map some := by
  induction bs generalizing card with
  | nil => exact ⟨[], rfl⟩
  | cons b bs ih =>
    cases hb : b.Date with
    | none => simp [addBirthdays, hb] at h
    | some d =>
      simp only [addBirthdays, hb] at h
      obtain ⟨dates, hd⟩ := ih _ h
      exact ⟨d :: dates, by simp [hb, hd]⟩

/-- When every dereferenced pointer is set and the table is present, the
mapper returns `builtCard` and no error. -/
theorem googleToCard_of_set (U : UnicodeTables) (p : people.Person) (groupMap : GroupMap)
    (pName : people.Name) (rest : List people.Name)
    (cgms : List people.ContactGroupMembership) (dates : List people.Date)
    (hn : p.Names = pName :: rest)
    (hm : p.Memberships.map (fun m => m.ContactGroupMembership) = cgms.map some)
    (hb : p.Birthdays.map (fun b => b.Date) = dates.map some) :
    googleToCard U p (some groupMap) =
      .done (some (builtCard U p pName groupMap cgms dates), none) := by
  simp only [googleToCard, hn, addMemberships_of_set groupMap _ cgms _ hm,
    addBirthdays_of_set _ dates _ hb, builtCard]

/-- Whenever the mapper returns a card, the card is `builtCard` and the error
is nil. -/
theorem googleToCard_done (U : UnicodeTables) (p : people.Person) (gm : Option GroupMap)
    (card : vcard.Card) (e : Option GoError)
    (h : googleToCard U p gm = .done (some card, e)) :
    ∃ pName rest groupMap cgms dates,
      p.Names = pName :: rest ∧ gm = some groupMap ∧ e = none ∧
      p.Memberships.map (fun m => m.ContactGroupMembership) = cgms.map some ∧
      p.Birthdays.map (fun b => b.Date) = dates.map some ∧
      card = builtCard U p pName groupMap cgms dates := by
  cases hn : p.Names with
  | nil => simp [googleToCard, hn] at h
  | cons pName rest =>
    cases gm with
    | none => simp [googleToCard, hn] at h
    | some groupMap =>
      simp only [googleToCard, hn] at h
      split at h
      · cases h
      · rename_i c1 h1
        split at h
        · cases h
        · rename_i c2 h2
          obtain ⟨cgms, hm⟩ := addMemberships_done _ _ _ _ h1
          obtain ⟨dates, hb⟩ := addBirthdays_done _ _ _ h2
          have := googleToCard_of_set U p groupMap pName rest cgms dates hn hm hb
          simp only [googleToCard, hn, h1, h2] at this
          simp only [Run.done.injEq, Prod.mk.injEq, Option.some.injEq] at h this
          exact ⟨pName, rest, groupMap, cgms, dates, rfl, rfl, h.2.symm, hm, hb,
            h.1.symm.trans this.1⟩

theorem addOrganizations_fst (os : List people.Organization) (card : vcard.Card)
    (title : String) :
    (addOrganizations os card title).1 =
      os.foldl (fun c o => c.Add vcard.FieldOrganization
        (vcard.valueField (organizationValue o))) card := by
  unfold addOrganizations
  induction os generalizing card title with
  | nil => rfl
  | cons o os ih =>
    simp only [List.foldl_cons]
    rw [ih]
    rfl

theorem addOrganizations_snd (os : List people.Organization) (card : vcard.Card)
    (title : String) :
    (addOrganizations os card title).2 = if title = "" then titleAfterLoop os else title := by
  unfold addOrganizations
  induction os generalizing card title with
  | nil => by_cases h : title = "" <;> simp [titleAfterLoop, h]
  | cons o os ih =>
    simp only [List.foldl_cons]
    rw [ih]
    by_cases h : title = ""
    · by_cases ho : o.Title = ""
      · simp [h, ho, titleAfterLoop, List.find?]
      · simp [h, ho, titleAfterLoop, List.find?]
    · simp [h]

/-- The fields the returned card holds under each key `k`. -/
theorem builtCard_index (U : UnicodeTables) (p : people.Person) (pName : people.Name)
    (groupMap : GroupMap) (cgms : List people.ContactGroupMembership)
    (dates : List people.Date) (k : String) :
    (builtCard U p pName groupMap cgms dates).index k =
      (if k = vcard.FieldVersion then [vcard.valueField "3.0"] else []) ++
      (if k = vcard.FieldName then [(nameOf pName).field] else []) ++
      (if k = vcard.FieldFormattedName then [vcard.valueField pName.DisplayName] else []) ++
      (if k = vcard.FieldCategories then
        cgms.map (fun cgm => vcard.valueField (groupMap.index cgm.ContactGroupResourceName))
        else []) ++
      (if k = vcard.FieldEmail then p.EmailAddresses.map (emailField U) else []) ++
      (if k = vcard.FieldTelephone then p.PhoneNumbers.map (phoneField U) else []) ++
      (if k = vcard.FieldBirthday then
        dates.map (fun d => vcard.valueField (birthdayValue d)) else []) ++
      (if k = vcard.FieldAddress then p.Addresses.map (fun a => (addressOf U a).field)
        else []) ++
      (if k = vcard.FieldOrganization then
        p.Organizations.map (fun o => vcard.valueField (organizationValue o)) else []) ++
      (if k = vcard.FieldTitle then
        (if titleAfterLoop p.Organizations ≠ "" then
          [vcard.valueField (titleAfterLoop p.Organizations)] else []) else []) ++
      (if k = vcard.FieldURL then p.Urls.map (urlField U) else []) ++
      (if k = vcard.FieldPhoto then p.Photos.map (fun i => vcard.valueField i.Url) else []) ++
      (if k = vcard.FieldNote then p.Biographies.map (fun n => vcard.valueField n.Value)
        else []) := by
  have hnil : vcard.Card.index [] k = [] := rfl
  have htitle : ∀ (c : vcard.Card) (t : String),
      (if t ≠ "" then c.Add vcard.FieldTitle (vcard.valueField t) else c).index k =
        c.index k ++ (if k = vcard.FieldTitle then
          (if t ≠ "" then [vcard.valueField t] else []) else []) := by
    intro c t
    by_cases ht : t = ""
    · simp [ht]
    · simp [ht, index_Add]
  simp only [builtCard, finishCard, addBiographies, addPhotos, addUrls, addAddresses,
    addPhoneNumbers, addEmailAddresses, vcard.Card.AddValue, vcard.Card.AddName,
    vcard.Card.AddAddress, index_foldl_Add, htitle, addOrganizations_fst,
    addOrganizations_snd, index_Add, hnil, if_true, List.nil_append, List.append_assoc]

/-! ## Claims about the mapper -/

/-- C5: for a record whose list of name entries is empty, and any group lookup
table, present or absent, `googleToCard` returns the nil card together with an
error, whatever else the record carries. -/
theorem googleToCard_without_name (U : UnicodeTables) (p : people.Person)
    (groupMap : Option GroupMap) (h : p.Names = []) :
    googleToCard U p groupMap = .done (none, some "person has no name") := by
  simp [googleToCard, h]

theorem googleToCard_without_name_witness :
    googleToCard UnicodeTables.caseless personWithoutName (some [("g/1", "Friends")]) =
      .done (none, some "person has no name") :=
  googleToCard_without_name UnicodeTables.caseless personWithoutName
    (some [("g/1", "Friends")]) (by decide)

/-- C6, the code at the failing inputs: for a named record and a present
lookup table, `googleToCard` panics on a nil dereference when a birthday entry
has no date, and likewise when a membership entry has no contact-group
membership; it returns neither a card nor an error. -/
theorem googleToCard_panics_on_unset_pointer :
    googleToCard UnicodeTables.caseless personBirthdayWithoutDate (some []) =
      .panic "invalid memory address or nil pointer dereference" ∧
    googleToCard UnicodeTables.caseless personDomainMembership (some []) =
      .panic "invalid memory address or nil pointer dereference" :=
  ⟨rfl, rfl⟩

theorem titleAfterLoop_first_nonempty (pre post : List people.Organization)
    (o : people.Organization) (hpre : ∀ o' ∈ pre, o'.Title = "") (ho : o.Title ≠ "") :
    titleAfterLoop (pre ++ o :: post) = o.Title := by
  induction pre with
  | nil => simp [titleAfterLoop, List.find?, ho]
  | cons a pre ih =>
    have ha : a.Title = "" := hpre a (by simp)
    have := ih (fun o' h' => hpre o' (List.mem_cons_of_mem _ h'))
    simpa [titleAfterLoop, List.find?, ha] using this

theorem titleAfterLoop_all_empty (os : List people.Organization)
    (h : ∀ o ∈ os, o.Title = "") : titleAfterLoop os = "" := by
  induction os with
  | nil => rfl
  | cons a os ih =>
    have ha : a.Title = "" := h a (by simp)
    have := ih (fun o' h' => h o' (List.mem_cons_of_mem _ h'))
    simpa [titleAfterLoop, List.find?, ha] using this

/-- C7, the claim fails: the first organization of this record has an empty
title, yet the returned card has a TITLE field, whose value is the title of
the second organization. -/
theorem googleToCard_title_from_second_organization :
    ∃ card : vcard.Card,
      googleToCard UnicodeTables.caseless personTwoOrganizations (some []) =
        .done (some card, none) ∧
      personTwoOrganizations.Organizations.map (fun o => o.Title) = ["", "CEO"] ∧
      card.index vcard.FieldTitle = [{ Value := "CEO", Params := [], Group := "" }] :=
  ⟨_, rfl, by decide, by decide⟩

/-- C7, amended: for every successfully mapped record the card has a TITLE
field exactly when some organization has a non-empty title; it then has
exactly one TITLE field, whose value is the title of the first organization,
in source order, whose title is not empty. -/
theorem googleToCard_title (U : UnicodeTables) (p : people.Person)
    (groupMap : Option GroupMap) (card : vcard.Card) (e : Option GoError)
    (h : googleToCard U p groupMap = .done (some card, e)) :
    (card.index vcard.FieldTitle ≠ [] ↔ ∃ o ∈ p.Organizations, o.Title ≠ "") ∧
    (∀ pre o post, p.Organizations = pre ++ o :: post → (∀ o' ∈ pre, o'.Title = "") →
      o.Title ≠ "" → card.index vcard.FieldTitle = [vcard.valueField o.Title]) := by
  obtain ⟨pName, rest, g, cgms, dates, -, -, -, -, -, rfl⟩ := googleToCard_done U p _ _ _ h
  have hidx : (builtCard U p pName g cgms dates).index vcard.FieldTitle =
      if titleAfterLoop p.Organizations ≠ "" then
        [vcard.valueField (titleAfterLoop p.Organizations)] else [] := by
    rw [builtCard_index]
    simp [vcard.FieldTitle, vcard.FieldVersion, vcard.FieldName, vcard.FieldFormattedName,
      vcard.FieldCategories, vcard.FieldEmail, vcard.FieldTelephone, vcard.FieldBirthday,
      vcard.FieldAddress, vcard.FieldOrganization, vcard.FieldURL, vcard.FieldPhoto,
      vcard.FieldNote]
  have hsecond : ∀ pre o post, p.Organizations = pre ++ o :: post →
      (∀ o' ∈ pre, o'.Title = "") → o.Title ≠ "" →
      (builtCard U p pName g cgms dates).index vcard.FieldTitle =
        [vcard.valueField o.Title] := by
    intro pre o post hsplit hpre ho
    rw [hidx, hsplit, titleAfterLoop_first_nonempty pre post o hpre ho]
    simp [ho]
  refine ⟨⟨fun hne => ?_, fun hex => ?_⟩, hsecond⟩
  · by_contra hall
    apply hne
    rw [hidx, titleAfterLoop_all_empty]
    · simp
    · intro o ho
      by_contra ht
      exact hall ⟨o, ho, ht⟩
  · obtain ⟨o, ho, hot⟩ := hex
    cases hfind : p.Organizations.find? (fun o => decide (o.Title ≠ "")) with
    | none =>
      have := List.find?_eq_none.mp hfind o ho
      simp [hot] at this
    | some o1 =>
      have h1 : o1.Title ≠ "" := by simpa using List.find?_some hfind
      have ht : titleAfterLoop p.Organizations = o1.Title := by
        unfold titleAfterLoop
        rw [hfind]
      rw [hidx, ht]
      simp [h1]

theorem googleToCard_title_witness :
    ((builtCard UnicodeTables.caseless personTwoOrganizations sampleName [] [] []).index
        vcard.FieldTitle ≠ [] ↔
      ∃ o ∈ personTwoOrganizations.Organizations, o.Title ≠ "") ∧
    (∀ pre o post, personTwoOrganizations.Organizations = pre ++ o :: post →
      (∀ o' ∈ pre, o'.Title = "") → o.Title ≠ "" →
      (builtCard UnicodeTables.caseless personTwoOrganizations sampleName [] [] []).index
        vcard.FieldTitle = [vcard.valueField o.Title]) :=
  googleToCard_title UnicodeTables.caseless personTwoOrganizations (some [])
    (builtCard UnicodeTables.caseless personTwoOrganizations sampleName [] [] []) none rfl

theorem toNat_ofNat_small (n : Nat) (h : n < 0xD800) : (Char.ofNat n).toNat = n := by
  have hv : n.isValidChar := Or.inl h
  simp [Char.ofNat, hv, Char.toNat, Char.ofNatAux]
  rfl

theorem unicode_ToUpper_ascii (U : UnicodeTables) (r : Char) (h : r.toNat ≤ 0x7F) :
    ¬ ('a'.toNat ≤ (unicode.ToUpper U r).toNat ∧ (unicode.ToUpper U r).toNat ≤ 'z'.toNat) := by
  have ha : 'a'.toNat = 97 := rfl
  have hz : 'z'.toNat = 122 := rfl
  unfold unicode.ToUpper
  rw [if_pos h]
  by_cases hl : 'a'.toNat ≤ r.toNat ∧ r.toNat ≤ 'z'.toNat
  · rw [if_pos hl]
    rw [ha, hz] at hl ⊢
    rw [toNat_ofNat_small (r.toNat - 32) (by omega)]
    omega
  · rw [if_neg hl]
    exact hl

theorem phoneField_eq (U : UnicodeTables) (ph : people.PhoneNumber) :
    phoneField U ph =
      { Value := ph.CanonicalForm, Params := [("TYPE", [strings.ToUpper U ph.Typ])],
        Group := "" } := rfl

/-- C9: for every successfully mapped record the card holds, under the key
TEL, exactly one field per phone-number entry, in source order; its value is
the entry's canonical form and its only parameter is TYPE with the single
value `strings.ToUpper` of the source type.  Upper-casing maps `mobile` to
`MOBILE`, and leaves no lower-case ASCII letter in a type made of ASCII
characters. -/
theorem googleToCard_telephone (U : UnicodeTables) (p : people.Person)
    (groupMap : Option GroupMap) (card : vcard.Card) (e : Option GoError)
    (h : googleToCard U p groupMap = .done (some card, e)) :
    card.index vcard.FieldTelephone =
      p.PhoneNumbers.map (fun ph =>
        { Value := ph.CanonicalForm, Params := [("TYPE", [strings.ToUpper U ph.Typ])],
          Group := "" }) ∧
    strings.ToUpper U "mobile" = "MOBILE" ∧
    ∀ ph ∈ p.PhoneNumbers, (∀ r ∈ ph.Typ.data, r.toNat ≤ 0x7F) →
      ∀ r ∈ (strings.ToUpper U ph.Typ).data, ¬ ('a'.toNat ≤ r.toNat ∧ r.toNat ≤ 'z'.toNat) := by
  obtain ⟨pName, rest, g, cgms, dates, -, -, -, -, -, rfl⟩ := googleToCard_done U p _ _ _ h
  refine ⟨?_, rfl, ?_⟩
  · rw [builtCard_index]
    simp [vcard.FieldTitle, vcard.FieldVersion, vcard.FieldName, vcard.FieldFormattedName,
      vcard.FieldCategories, vcard.FieldEmail, vcard.FieldTelephone, vcard.FieldBirthday,
      vcard.FieldAddress, vcard.FieldOrganization, vcard.FieldURL, vcard.FieldPhoto,
      vcard.FieldNote, phoneField_eq]
  · intro ph _ hascii r hr
    simp only [strings.ToUpper, List.mem_map] at hr
    obtain ⟨r0, hr0, rfl⟩ := hr
    exact unicode_ToUpper_ascii U r0 (hascii r0 hr0)

theorem googleToCard_telephone_witness :
    (builtCard UnicodeTables.caseless personWithPhones sampleName [] [] []).index
        vcard.FieldTelephone =
      [{ Value := "+4312345", Params := [("TYPE", ["MOBILE"])], Group := "" },
       { Value := "+4367890", Params := [("TYPE", ["WORK"])], Group := "" }] ∧
    ((builtCard UnicodeTables.caseless personWithPhones sampleName [] [] []).index
        vcard.FieldTelephone =
      personWithPhones.PhoneNumbers.map (fun ph =>
        { Value := ph.CanonicalForm,
          Params := [("TYPE", [strings.ToUpper UnicodeTables.caseless ph.Typ])],
          Group := "" }) ∧
    strings.ToUpper UnicodeTables.caseless "mobile" = "MOBILE" ∧
    ∀ ph ∈ personWithPhones.PhoneNumbers, (∀ r ∈ ph.Typ.data, r.toNat ≤ 0x7F) →
      ∀ r ∈ (strings.ToUpper UnicodeTables.caseless ph.Typ).data,
        ¬ ('a'.toNat ≤ r.toNat ∧ r.toNat ≤ 'z'.toNat)) :=
  ⟨by decide,
    googleToCard_telephone UnicodeTables.caseless personWithPhones (some [])
      (builtCard UnicodeTables.caseless personWithPhones sampleName [] [] []) none rfl⟩

/-! ## Mapping followed by encoding -/

theorem keyLines_end_crlf (U : UnicodeTables) (c : vcard.Card) (k : String) :
    ∀ l ∈ keyLines U c k, ∃ t : String, l = t ++ "\r\n" := by
  intro l hl
  unfold keyLines at hl
  split_ifs at hl
  · simp only [List.mem_singleton] at hl
    exact ⟨_, hl⟩
  · obtain ⟨f, _, rfl⟩ := List.mem_map.mp hl
    exact ⟨_, rfl⟩

/-- C8, the claim fails: for this record, born on 9 March 1990, the mapper
returns a card and the encoder writes the birthday under the property name
`BDAY`, the value of `vcard.FieldBirthday`; no line `BIRTHDAY:19900309` is
written. -/
theorem Encode_birthday_is_written_as_BDAY :
    ∃ card : vcard.Card,
      googleToCard UnicodeTables.caseless personBorn1990 (some []) = .done (some card, none) ∧
      ((NewEncoder Sink.fresh).Encode UnicodeTables.caseless card).2 = none ∧
      ((NewEncoder Sink.fresh).Encode UnicodeTables.caseless card).1.w.writes =
        ["BEGIN:VCARD\r\n", "VERSION:3.0\r\n", "BDAY:19900309\r\n", "FN:Ada L\r\n",
          "N:L;Ada;;;\r\n", "END:VCARD\r\n"] ∧
      "BIRTHDAY:19900309\r\n" ∉
        ((NewEncoder Sink.fresh).Encode UnicodeTables.caseless card).1.w.writes ∧
      ((NewEncoder Sink.fresh).Encode UnicodeTables.caseless card).1.w.bytes =
        "BEGIN:VCARD\r\nVERSION:3.0\r\nBDAY:19900309\r\nFN:Ada L\r\nN:L;Ada;;;\r\nEND:VCARD\r\n" :=
  ⟨_, rfl, by decide, by decide, by decide, by decide⟩

/-- C8, amended: for every successfully mapped record with a birthday entry of
year 1990, month 3, day 9, encoding the returned card to a sink whose writes
succeed returns no error and writes the line `BDAY:19900309` with its CRLF;
the line follows at least one earlier line of the same card, each of which
ends in CRLF. -/
theorem Encode_birthday_line (U : UnicodeTables) (p : people.Person)
    (groupMap : Option GroupMap) (card : vcard.Card) (e : Option GoError) (enc : Encoder)
    (h : googleToCard U p groupMap = .done (some card, e))
    (hb : ∃ b ∈ p.Birthdays, b.Date = some { Day := 9, Month := 3, Year := 1990 })
    (hw : enc.w.reliable) :
    (enc.Encode U card).2 = none ∧
    ∃ before after : List String,
      (enc.Encode U card).1.w.writes =
        enc.w.writes ++ before ++ ["BDAY:19900309\r\n"] ++ after ∧
      before ≠ [] ∧ ∀ l ∈ before, ∃ t : String, l = t ++ "\r\n" := by
  obtain ⟨pName, rest, g, cgms, dates, -, -, -, -, hdates, rfl⟩ :=
    googleToCard_done U p _ _ _ h
  obtain ⟨b, hbmem, hbdate⟩ := hb
  have hd : ({ Day := 9, Month := 3, Year := 1990 } : people.Date) ∈ dates := by
    have h1 : some ({ Day := 9, Month := 3, Year := 1990 } : people.Date) ∈
        p.Birthdays.map (fun b => b.Date) := List.mem_map.mpr ⟨b, hbmem, hbdate⟩
    rw [hdates] at h1
    obtain ⟨d, hd, hsome⟩ := List.mem_map.mp h1
    cases hsome
    exact hd
  have hver : (builtCard U p pName g cgms dates).Get vcard.FieldVersion =
      some (vcard.valueField "3.0") := by
    unfold vcard.Card.Get
    rw [builtCard_index]
    simp [vcard.FieldTitle, vcard.FieldVersion, vcard.FieldName, vcard.FieldFormattedName,
      vcard.FieldCategories, vcard.FieldEmail, vcard.FieldTelephone, vcard.FieldBirthday,
      vcard.FieldAddress, vcard.FieldOrganization, vcard.FieldURL, vcard.FieldPhoto,
      vcard.FieldNote]
  have hidx : (builtCard U p pName g cgms dates).index vcard.FieldBirthday =
      dates.map (fun d => vcard.valueField (birthdayValue d)) := by
    rw [builtCard_index]
    simp [vcard.FieldTitle, vcard.FieldVersion, vcard.FieldName, vcard.FieldFormattedName,
      vcard.FieldCategories, vcard.FieldEmail, vcard.FieldTelephone, vcard.FieldBirthday,
      vcard.FieldAddress, vcard.FieldOrganization, vcard.FieldURL, vcard.FieldPhoto,
      vcard.FieldNote]
  obtain ⟨d1, d2, hsplitd⟩ := List.append_of_mem hd
  have hne : (builtCard U p pName g cgms dates).index vcard.FieldBirthday ≠ [] := by
    rw [hidx, hsplitd]
    simp
  have hmem : vcard.FieldBirthday ∈
      (sort.Strings (builtCard U p pName g cgms dates).keys).filter
        (fun k => !strings.EqualFold U k vcard.FieldVersion) :=
    (mem_bodyKeys U _ _).mpr ⟨mem_keys_of_mapIndex_ne_nil _ _ hne, rfl⟩
  obtain ⟨lo, hi, hsplit⟩ := List.append_of_mem hmem
  have hfold : strings.EqualFold U vcard.FieldBirthday vcard.FieldCategories = false := rfl
  have hline : formatLine vcard.FieldBirthday
      (vcard.valueField (birthdayValue { Day := 9, Month := 3, Year := 1990 })) ++ "\r\n" =
      "BDAY:19900309\r\n" := by decide
  have hlines : keyLines U (builtCard U p pName g cgms dates) vcard.FieldBirthday =
      d1.map (fun d => formatLine vcard.FieldBirthday (vcard.valueField (birthdayValue d))
        ++ "\r\n") ++ ["BDAY:19900309\r\n"] ++
      d2.map (fun d => formatLine vcard.FieldBirthday (vcard.valueField (birthdayValue d))
        ++ "\r\n") := by
    unfold keyLines
    rw [hfold, hidx, hsplitd]
    simp [hline]
    rfl
  rw [Encode_reliable_present U enc _ _ hw hver, hsplit]
  refine ⟨rfl, ["BEGIN:VCARD\r\n",
      formatLine vcard.FieldVersion (vcard.valueField "3.0") ++ "\r\n"] ++
      lo.flatMap (keyLines U (builtCard U p pName g cgms dates)) ++
      d1.map (fun d => formatLine vcard.FieldBirthday (vcard.valueField (birthdayValue d))
        ++ "\r\n"),
    d2.map (fun d => formatLine vcard.FieldBirthday (vcard.valueField (birthdayValue d))
        ++ "\r\n") ++
      hi.flatMap (keyLines U (builtCard U p pName g cgms dates)) ++ ["END:VCARD\r\n"],
    ?_, by simp, ?_⟩
  · simp [Sink.push, List.flatMap_append, hlines]
  · intro l hl
    simp only [List.mem_append, List.mem_cons, List.mem_flatMap, List.mem_map,
      List.mem_singleton, List.not_mem_nil, or_false] at hl
    rcases hl with ((rfl | rfl) | ⟨k, _, hk⟩) | ⟨d, _, rfl⟩
    · exact ⟨"BEGIN:VCARD", rfl⟩
    · exact ⟨_, rfl⟩
    · exact keyLines_end_crlf U _ k l hk
    · exact ⟨_, rfl⟩

theorem Encode_birthday_line_witness :
    ((NewEncoder Sink.fresh).Encode UnicodeTables.caseless
      (builtCard UnicodeTables.caseless personBorn1990 sampleName [] []
        [{ Day := 9, Month := 3, Year := 1990 }])).2 = none ∧
    ∃ before after : List String,
      ((NewEncoder Sink.fresh).Encode UnicodeTables.caseless
        (builtCard UnicodeTables.caseless personBorn1990 sampleName [] []
          [{ Day := 9, Month := 3, Year := 1990 }])).1.w.writes =
        (NewEncoder Sink.fresh).w.writes ++ before ++ ["BDAY:19900309\r\n"] ++ after ∧
      before ≠ [] ∧ ∀ l ∈ before, ∃ t : String, l = t ++ "\r\n" :=
  Encode_birthday_line UnicodeTables.caseless personBorn1990 (some [])
    (builtCard UnicodeTables.caseless personBorn1990 sampleName [] []
      [{ Day := 9, Month := 3, Year := 1990 }]) none (NewEncoder Sink.fresh) rfl
    ⟨{ Date := some { Day := 9, Month := 3, Year := 1990 } }, by decide, rfl⟩ (by decide)

/-! ## The single pass and the three substitutions -/

theorem replaceAllChars_append (old : Char) (new a b : List Char) :
    replaceAllChars old new (a ++ b) = replaceAllChars old new a ++ replaceAllChars old new b := by
  induction a with
  | nil => rfl
  | cons c cs ih => simp [replaceAllChars, ih]

theorem sequential_single (c : Char) :
    replaceAllChars ',' ['\\', ',']
      (replaceAllChars '\n' ['\\', 'n'] (replaceAllChars '\\' ['\\', '\\'] [c])) =
    valueFormatter c := by
  by_cases h1 : c = '\\'
  · subst h1
    decide
  · by_cases h2 : c = '\n'
    · subst h2
      decide
    · by_cases h3 : c = ','
      · subst h3
        decide
      · simp [replaceAllChars, valueFormatter, h1, h2, h3]

theorem sequential_chars (v : List Char) :
    replaceAllChars ',' ['\\', ',']
      (replaceAllChars '\n' ['\\', 'n'] (replaceAllChars '\\' ['\\', '\\'] v)) =
    replaceChars v := by
  induction v with
  | nil => rfl
  | cons c cs ih =>
    have hsplit : c :: cs = [c] ++ cs := rfl
    rw [hsplit, replaceAllChars_append, replaceAllChars_append, replaceAllChars_append, ih,
      sequential_single]
    rfl

/-- C14: the single pass of `formatValue` computes, for every string, the
result of the three whole-string substitutions of the specification applied in
sequence (backslash, then newline, then comma); so a backslash that the newline
or comma substitution introduces is not doubled, as for a newline followed by a
comma. -/
theorem formatValue_eq_escapeSequentially :
    (∀ v : String, formatValue v = escapeSequentially v) ∧
    formatValue "\n," = "\\n\\," := by
  refine ⟨fun v => ?_, by decide⟩
  cases v with
  | mk cs =>
    simp only [formatValue, escapeSequentially, replaceAll]
    exact congrArg String.mk (sequential_chars cs).symm

/-! ## Joining the writes -/

theorem foldl_append_string (acc : String) (l : List String) :
    l.foldl (fun r s => r ++ s) acc = acc ++ l.foldl (fun r s => r ++ s) "" := by
  induction l generalizing acc with
  | nil => simp
  | cons s l ih =>
    rw [List.foldl_cons, ih, List.foldl_cons, ih ("" ++ s)]
    simp [String.append_assoc]

theorem join_cons (s : String) (l : List String) :
    String.join (s :: l) = s ++ String.join l := by
  unfold String.join
  rw [List.foldl_cons, foldl_append_string]
  simp

theorem join_append (a b : List String) :
    String.join (a ++ b) = String.join a ++ String.join b := by
  induction a with
  | nil => simp [String.join]
  | cons s a ih => simp [join_cons, ih, String.append_assoc]

theorem join_nil : String.join [] = "" := rfl

/-! ## Name fields -/

theorem builtCard_Get_version (U : UnicodeTables) (p : people.Person) (pName : people.Name)
    (groupMap : GroupMap) (cgms : List people.ContactGroupMembership)
    (dates : List people.Date) :
    (builtCard U p pName groupMap cgms dates).Get vcard.FieldVersion =
      some (vcard.valueField "3.0") := by
  unfold vcard.Card.Get
  rw [builtCard_index]
  simp [vcard.FieldTitle, vcard.FieldVersion, vcard.FieldName, vcard.FieldFormattedName,
    vcard.FieldCategories, vcard.FieldEmail, vcard.FieldTelephone, vcard.FieldBirthday,
    vcard.FieldAddress, vcard.FieldOrganization, vcard.FieldURL, vcard.FieldPhoto,
    vcard.FieldNote]

/-- C18: for a record with at least one name entry that is mapped
successfully, the card holds exactly one field under N, whose value is family
name, given name, middle name, honorific prefix and honorific suffix of the
first name entry joined by `;`, and exactly one field under FN, whose value is
the display name of that entry; replacing the second and later name entries by
any others does not change the result of `googleToCard`. -/
theorem googleToCard_name (U : UnicodeTables) (p : people.Person)
    (groupMap : Option GroupMap) (pName : people.Name) (rest : List people.Name)
    (card : vcard.Card) (e : Option GoError) (hn : p.Names = pName :: rest)
    (h : googleToCard U p groupMap = .done (some card, e)) :
    card.index vcard.FieldName =
      [{ Value := strings.Join [pName.FamilyName, pName.GivenName, pName.MiddleName,
          pName.HonorificPrefix, pName.HonorificSuffix] ";",
         Params := [], Group := "" }] ∧
    card.index vcard.FieldFormattedName =
      [{ Value := pName.DisplayName, Params := [], Group := "" }] ∧
    ∀ rest' : List people.Name,
      googleToCard U { p with Names := pName :: rest' } groupMap =
        googleToCard U p groupMap := by
  obtain ⟨pName', rest', g, cgms, dates, hn', -, -, -, -, rfl⟩ :=
    googleToCard_done U p _ _ _ h
  rw [hn] at hn'
  cases hn'
  refine ⟨?_, ?_, ?_⟩
  · rw [builtCard_index]
    simp [vcard.FieldTitle, vcard.FieldVersion, vcard.FieldName, vcard.FieldFormattedName,
      vcard.FieldCategories, vcard.FieldEmail, vcard.FieldTelephone, vcard.FieldBirthday,
      vcard.FieldAddress, vcard.FieldOrganization, vcard.FieldURL, vcard.FieldPhoto,
      vcard.FieldNote, vcard.Name.field, nameOf]
  · rw [builtCard_index]
    simp [vcard.FieldTitle, vcard.FieldVersion, vcard.FieldName, vcard.FieldFormattedName,
      vcard.FieldCategories, vcard.FieldEmail, vcard.FieldTelephone, vcard.FieldBirthday,
      vcard.FieldAddress, vcard.FieldOrganization, vcard.FieldURL, vcard.FieldPhoto,
      vcard.FieldNote, vcard.valueField]
  · intro rest''
    simp only [googleToCard, hn, finishCard]

theorem googleToCard_name_witness :
    (builtCard UnicodeTables.caseless personThreeNames sampleName [] [] []).index
        vcard.FieldName =
      [{ Value := strings.Join [sampleName.FamilyName, sampleName.GivenName,
          sampleName.MiddleName, sampleName.HonorificPrefix, sampleName.HonorificSuffix] ";",
         Params := [], Group := "" }] ∧
    (builtCard UnicodeTables.caseless personThreeNames sampleName [] [] []).index
        vcard.FieldFormattedName =
      [{ Value := sampleName.DisplayName, Params := [], Group := "" }] ∧
    ∀ rest' : List people.Name,
      googleToCard UnicodeTables.caseless { personThreeNames with Names := sampleName :: rest' }
          (some []) =
        googleToCard UnicodeTables.caseless personThreeNames (some []) :=
  googleToCard_name UnicodeTables.caseless personThreeNames (some []) sampleName _
    (builtCard UnicodeTables.caseless personThreeNames sampleName [] [] []) none rfl rfl

/-- C13: whenever `googleToCard` returns a card, `Encode` of that card on a
sink whose writes succeed returns no error; what it writes starts with the
lines `BEGIN:VCARD` and `VERSION:3.0` and ends with the line `END:VCARD`, each
with its CRLF. -/
theorem Encode_of_googleToCard (U : UnicodeTables) (p : people.Person)
    (groupMap : Option GroupMap) (card : vcard.Card) (e : Option GoError) (enc : Encoder)
    (h : googleToCard U p groupMap = .done (some card, e)) (hw : enc.w.reliable) :
    (enc.Encode U card).2 = none ∧
    (∃ body : List String,
      (enc.Encode U card).1.w.writes =
        enc.w.writes ++ ["BEGIN:VCARD\r\n", "VERSION:3.0\r\n"] ++ body ++ ["END:VCARD\r\n"]) ∧
    ∃ middle : String,
      (enc.Encode U card).1.w.bytes =
        enc.w.bytes ++ "BEGIN:VCARD\r\nVERSION:3.0\r\n" ++ middle ++ "END:VCARD\r\n" := by
  obtain ⟨pName, rest, g, cgms, dates, -, -, -, -, -, rfl⟩ := googleToCard_done U p _ _ _ h
  rw [Encode_reliable_present U enc _ _ hw (builtCard_Get_version U p pName g cgms dates)]
  have hver : formatLine vcard.FieldVersion (vcard.valueField "3.0") ++ "\r\n" =
      "VERSION:3.0\r\n" := by decide
  refine ⟨rfl, ⟨_, by simp [Sink.push, hver]; rfl⟩, ?_⟩
  refine ⟨String.join (((sort.Strings (builtCard U p pName g cgms dates).keys).filter
    (fun k => !strings.EqualFold U k vcard.FieldVersion)).flatMap
      (keyLines U (builtCard U p pName g cgms dates))), ?_⟩
  simp only [Sink.bytes, Sink.push, join_append, join_cons, join_nil, hver,
    String.append_assoc, String.append_empty]
  rfl

theorem Encode_of_googleToCard_witness :
    ((NewEncoder Sink.fresh).Encode UnicodeTables.caseless
      (builtCard UnicodeTables.caseless personThreeNames sampleName [] [] [])).2 = none ∧
    (∃ body : List String,
      ((NewEncoder Sink.fresh).Encode UnicodeTables.caseless
        (builtCard UnicodeTables.caseless personThreeNames sampleName [] [] [])).1.w.writes =
        (NewEncoder Sink.fresh).w.writes ++ ["BEGIN:VCARD\r\n", "VERSION:3.0\r\n"] ++ body ++
          ["END:VCARD\r\n"]) ∧
    ∃ middle : String,
      ((NewEncoder Sink.fresh).Encode UnicodeTables.caseless
        (builtCard UnicodeTables.caseless personThreeNames sampleName [] [] [])).1.w.bytes =
        (NewEncoder Sink.fresh).w.bytes ++ "BEGIN:VCARD\r\nVERSION:3.0\r\n" ++ middle ++
          "END:VCARD\r\n" :=
  Encode_of_googleToCard UnicodeTables.caseless personThreeNames (some [])
    (builtCard UnicodeTables.caseless personThreeNames sampleName [] [] []) none
    (NewEncoder Sink.fresh) rfl (by decide)

/-! ## Cards built by `Add` -/

theorem keys_mapAppend {α : Type} (m : List (String × List α)) (k : String) (x : α) :
    (mapAppend m k x).map Prod.fst =
      if k ∈ m.map Prod.fst then m.map Prod.fst else m.map Prod.fst ++ [k] := by
  induction m with
  | nil => simp [mapAppend]
  | cons kv rest ih =>
    obtain ⟨k0, vs⟩ := kv
    by_cases h0 : k0 = k
    · subst h0
      simp [mapAppend]
    · have h0' : ¬ k = k0 := fun e => h0 e.symm
      simp only [mapAppend, h0, if_false, List.map_cons, ih, List.mem_cons, h0', false_or]
      split_ifs <;> simp

theorem mem_values_mapAppend {α : Type} (m : List (String × List α)) (k : String) (x : α)
    (hm : ∀ kv ∈ m, kv.2 ≠ []) : ∀ kv ∈ mapAppend m k x, kv.2 ≠ [] := by
  induction m with
  | nil =>
    intro kv hkv
    simp only [mapAppend, List.mem_singleton] at hkv
    subst hkv
    simp
  | cons kv0 rest ih =>
    obtain ⟨k0, vs⟩ := kv0
    intro kv hkv
    by_cases h0 : k0 = k
    · simp only [mapAppend, h0, if_true, List.mem_cons] at hkv
      rcases hkv with rfl | hkv
      · simp
      · exact hm kv (List.mem_cons_of_mem _ hkv)
    · simp only [mapAppend, h0, if_false, List.mem_cons] at hkv
      rcases hkv with rfl | hkv
      · exact hm _ (by simp)
      · exact ih (fun kv' h' => hm kv' (List.mem_cons_of_mem _ h')) kv hkv

theorem Built_nil : vcard.Card.Built [] :=
  ⟨List.nodup_nil, fun _ h => by cases h⟩

theorem Built_Add {c : vcard.Card} (h : c.Built) (k : String) (f : vcard.Field) :
    (c.Add k f).Built := by
  refine ⟨?_, mem_values_mapAppend c k f h.2⟩
  have hk := keys_mapAppend c k f
  unfold vcard.Card.WF vcard.Card.keys vcard.Card.Add
  rw [hk]
  have hwf : (c.map Prod.fst).Nodup := h.1
  split_ifs with hmem
  · exact hwf
  · exact List.Nodup.append hwf (List.nodup_singleton k) (by simpa using hmem)

theorem Built_foldl_Add {α : Type} (g : α → vcard.Field) (k : String) (xs : List α)
    {c : vcard.Card} (h : c.Built) : (xs.foldl (fun c x => c.Add k (g x)) c).Built := by
  induction xs generalizing c with
  | nil => exact h
  | cons x xs ih => exact ih (Built_Add h k (g x))

theorem Built_ite {c c' : vcard.Card} (P : Prop) [Decidable P] (h : c.Built) (h' : c'.Built) :
    (if P then c else c').Built := by
  split_ifs
  · exact h
  · exact h'

theorem builtCard_Built (U : UnicodeTables) (p : people.Person) (pName : people.Name)
    (groupMap : GroupMap) (cgms : List people.ContactGroupMembership)
    (dates : List people.Date) : (builtCard U p pName groupMap cgms dates).Built := by
  simp only [builtCard, finishCard, addBiographies, addPhotos, addUrls, addAddresses,
    addPhoneNumbers, addEmailAddresses, vcard.Card.AddValue, vcard.Card.AddName,
    vcard.Card.AddAddress, addOrganizations_fst]
  repeat (first
    | exact Built_nil
    | apply Built_foldl_Add
    | apply Built_Add
    | apply Built_ite)

theorem Built_mem_keys_iff {c : vcard.Card} (h : c.Built) (k : String) :
    k ∈ c.keys ↔ c.index k ≠ [] := by
  refine ⟨fun hk => ?_, fun hne => mem_keys_of_mapIndex_ne_nil c k hne⟩
  obtain ⟨kv, hkv, rfl⟩ := List.mem_map.mp hk
  have := mapIndex_of_mem c kv.1 kv.2 h.1 hkv
  unfold vcard.Card.index
  rw [this]
  exact h.2 kv hkv

/-! ## Group memberships -/

theorem GroupMap_index_of_not_mem (g : GroupMap) (k : String) (h : k ∉ g.map Prod.fst) :
    g.index k = "" := by
  induction g with
  | nil => rfl
  | cons kv rest ih =>
    obtain ⟨k0, v0⟩ := kv
    simp only [List.map_cons, List.mem_cons, not_or] at h
    have hne : ¬ k0 = k := fun e => h.1 e.symm
    simp [GroupMap.index, hne, ih h.2]

theorem GroupMap_index_of_mem (g : GroupMap) (k v : String) (hnd : (g.map Prod.fst).Nodup)
    (h : (k, v) ∈ g) : g.index k = v := by
  induction g with
  | nil => cases h
  | cons kv rest ih =>
    obtain ⟨k0, v0⟩ := kv
    simp only [List.map_cons, List.nodup_cons] at hnd
    rcases List.mem_cons.mp h with h | h
    · cases h
      simp [GroupMap.index]
    · have hk : k ∈ rest.map Prod.fst := List.mem_map.mpr ⟨(k, v), h, rfl⟩
      have hne : ¬ k0 = k := fun e => hnd.1 (e ▸ hk)
      simp [GroupMap.index, hne, ih hnd.2 h]

/-- C11: for every successfully mapped record the table is present, every
membership carries its contact-group membership, and the fields under
CATEGORIES are, in membership order, one plain field per membership whose
value is the table entry of the membership's resource name, or the empty
string when the resource name is not a key of the table; so their number is
the number of memberships, and with no membership the card has no CATEGORIES
key. -/
theorem googleToCard_categories (U : UnicodeTables) (p : people.Person)
    (groupMap : Option GroupMap) (card : vcard.Card) (e : Option GoError)
    (h : googleToCard U p groupMap = .done (some card, e)) :
    ∃ (g : GroupMap) (cgms : List people.ContactGroupMembership),
      groupMap = some g ∧ e = none ∧
      p.Memberships.map (fun m => m.ContactGroupMembership) = cgms.map some ∧
      card.index vcard.FieldCategories =
        cgms.map (fun cgm =>
          { Value := g.index cgm.ContactGroupResourceName, Params := [], Group := "" }) ∧
      (card.index vcard.FieldCategories).length = p.Memberships.length ∧
      (p.Memberships = [] → vcard.FieldCategories ∉ card.keys) ∧
      (∀ k, k ∉ g.map Prod.fst → g.index k = "") ∧
      (∀ k v, (g.map Prod.fst).Nodup → (k, v) ∈ g → g.index k = v) := by
  obtain ⟨pName, rest, g, cgms, dates, -, hg, he, hm, -, rfl⟩ := googleToCard_done U p _ _ _ h
  have hidx : (builtCard U p pName g cgms dates).index vcard.FieldCategories =
      cgms.map (fun cgm =>
        { Value := g.index cgm.ContactGroupResourceName, Params := [], Group := "" }) := by
    rw [builtCard_index]
    simp [vcard.FieldTitle, vcard.FieldVersion, vcard.FieldName, vcard.FieldFormattedName,
      vcard.FieldCategories, vcard.FieldEmail, vcard.FieldTelephone, vcard.FieldBirthday,
      vcard.FieldAddress, vcard.FieldOrganization, vcard.FieldURL, vcard.FieldPhoto,
      vcard.FieldNote, vcard.valueField]
  have hlen : cgms.length = p.Memberships.length := by
    have := congrArg List.length hm
    simpa using this.symm
  refine ⟨g, cgms, hg, he, hm, hidx, ?_, ?_, GroupMap_index_of_not_mem g,
    GroupMap_index_of_mem g⟩
  · rw [hidx, List.length_map, hlen]
  · intro hnone hkey
    have hne := (Built_mem_keys_iff (builtCard_Built U p pName g cgms dates) _).mp hkey
    apply hne
    rw [hidx]
    have : cgms = [] := by
      rw [hnone] at hlen
      exact List.length_eq_zero.mp hlen
    simp [this]

theorem googleToCard_categories_witness :
    (builtCard UnicodeTables.caseless personWithMemberships sampleName sampleGroups
        [{ ContactGroupResourceName := "g/1" }, { ContactGroupResourceName := "g/9" },
          { ContactGroupResourceName := "g/2" }] []).index vcard.FieldCategories =
      [{ Value := "Friends", Params := [], Group := "" },
       { Value := "", Params := [], Group := "" },
       { Value := "Work", Params := [], Group := "" }] ∧
    ∃ (g : GroupMap) (cgms : List people.ContactGroupMembership),
      some sampleGroups = some g ∧ (none : Option GoError) = none ∧
      personWithMemberships.Memberships.map (fun m => m.ContactGroupMembership) =
        cgms.map some ∧
      (builtCard UnicodeTables.caseless personWithMemberships sampleName sampleGroups
        [{ ContactGroupResourceName := "g/1" }, { ContactGroupResourceName := "g/9" },
          { ContactGroupResourceName := "g/2" }] []).index vcard.FieldCategories =
        cgms.map (fun cgm =>
          { Value := g.index cgm.ContactGroupResourceName, Params := [], Group := "" }) ∧
      ((builtCard UnicodeTables.caseless personWithMemberships sampleName sampleGroups
        [{ ContactGroupResourceName := "g/1" }, { ContactGroupResourceName := "g/9" },
          { ContactGroupResourceName := "g/2" }] []).index vcard.FieldCategories).length =
        personWithMemberships.Memberships.length ∧
      (personWithMemberships.Memberships = [] →
        vcard.FieldCategories ∉
          (builtCard UnicodeTables.caseless personWithMemberships sampleName sampleGroups
            [{ ContactGroupResourceName := "g/1" }, { ContactGroupResourceName := "g/9" },
              { ContactGroupResourceName := "g/2" }] []).keys) ∧
      (∀ k, k ∉ g.map Prod.fst → g.index k = "") ∧
      (∀ k v, (g.map Prod.fst).Nodup → (k, v) ∈ g → g.index k = v) :=
  ⟨by decide,
    googleToCard_categories UnicodeTables.caseless personWithMemberships (some sampleGroups)
      (builtCard UnicodeTables.caseless personWithMemberships sampleName sampleGroups
        [{ ContactGroupResourceName := "g/1" }, { ContactGroupResourceName := "g/9" },
          { ContactGroupResourceName := "g/2" }] []) none rfl⟩

/-! ## Email addresses and postal addresses -/

theorem emailField_eq (U : UnicodeTables) (e : people.EmailAddress) :
    emailField U e =
      { Value := e.Value, Params := [("TYPE", ["INTERNET", strings.ToUpper U e.Typ])],
        Group := "" } := rfl

theorem formatLine_email (U : UnicodeTables) (e : people.EmailAddress) :
    formatLine vcard.FieldEmail (emailField U e) =
      "EMAIL;TYPE=INTERNET;TYPE=" ++ formatValue (strings.ToUpper U e.Typ) ++ ":" ++
        formatValue e.Value := by
  have h1 : formatValue "INTERNET" = "INTERNET" := by decide
  apply String.ext
  simp only [formatLine, emailField_eq, formatParam, List.foldl, h1, String.data_append,
    vcard.FieldEmail]
  simp [vcard.ParamType]

theorem Encode_lines_of_key (U : UnicodeTables) (enc : Encoder) (c : vcard.Card)
    (version : vcard.Field) (k : String) (hw : enc.w.reliable)
    (hv : c.Get vcard.FieldVersion = some version)
    (hk : strings.EqualFold U k vcard.FieldVersion = false)
    (hcat : strings.EqualFold U k vcard.FieldCategories = false) :
    ∃ before after : List String,
      (enc.Encode U c).1.w.writes =
        enc.w.writes ++ before ++ (c.index k).map (fun f => formatLine k f ++ "\r\n") ++
          after := by
  rw [Encode_reliable_present U enc c version hw hv]
  by_cases hidx : c.index k = []
  · exact ⟨_, [], by simp [Sink.push, hidx]; rfl⟩
  · have hmem : k ∈ (sort.Strings c.keys).filter
        (fun k => !strings.EqualFold U k vcard.FieldVersion) :=
      (mem_bodyKeys U c k).mpr ⟨mem_keys_of_mapIndex_ne_nil c k hidx, hk⟩
    obtain ⟨lo, hi, hsplit⟩ := List.append_of_mem hmem
    have hlines : keyLines U c k = (c.index k).map (fun f => formatLine k f ++ "\r\n") := by
      simp [keyLines, hcat]
    rw [hsplit]
    refine ⟨["BEGIN:VCARD\r\n", formatLine vcard.FieldVersion version ++ "\r\n"] ++
      lo.flatMap (keyLines U c), hi.flatMap (keyLines U c) ++ ["END:VCARD\r\n"], ?_⟩
    simp [Sink.push, List.flatMap_append, hlines]

/-- C17: for every successfully mapped record the card holds, under EMAIL, one
field per email entry, in source order, whose value is the address text as
stored and whose only parameter is TYPE with the two values `INTERNET` and the
upper-cased source type, in that order; `Encode`, on a sink whose writes
succeed, writes for these fields, one after the other, the lines
`EMAIL;TYPE=INTERNET;TYPE=` + escaped upper-cased type + `:` + escaped address,
each with its CRLF. -/
theorem googleToCard_email (U : UnicodeTables) (p : people.Person)
    (groupMap : Option GroupMap) (card : vcard.Card) (e : Option GoError) (enc : Encoder)
    (h : googleToCard U p groupMap = .done (some card, e)) (hw : enc.w.reliable) :
    card.index vcard.FieldEmail =
      p.EmailAddresses.map (fun a =>
        { Value := a.Value, Params := [("TYPE", ["INTERNET", strings.ToUpper U a.Typ])],
          Group := "" }) ∧
    (enc.Encode U card).2 = none ∧
    ∃ before after : List String,
      (enc.Encode U card).1.w.writes =
        enc.w.writes ++ before ++
          p.EmailAddresses.map (fun a =>
            "EMAIL;TYPE=INTERNET;TYPE=" ++ formatValue (strings.ToUpper U a.Typ) ++ ":" ++
              formatValue a.Value ++ "\r\n") ++
          after := by
  obtain ⟨pName, rest, g, cgms, dates, -, -, -, -, -, rfl⟩ := googleToCard_done U p _ _ _ h
  have hidx : (builtCard U p pName g cgms dates).index vcard.FieldEmail =
      p.EmailAddresses.map (emailField U) := by
    rw [builtCard_index]
    simp [vcard.FieldTitle, vcard.FieldVersion, vcard.FieldName, vcard.FieldFormattedName,
      vcard.FieldCategories, vcard.FieldEmail, vcard.FieldTelephone, vcard.FieldBirthday,
      vcard.FieldAddress, vcard.FieldOrganization, vcard.FieldURL, vcard.FieldPhoto,
      vcard.FieldNote]
  have hver := builtCard_Get_version U p pName g cgms dates
  refine ⟨by rw [hidx]; rfl, ?_, ?_⟩
  · rw [Encode_reliable_present U enc _ _ hw hver]
  · obtain ⟨before, after, hwr⟩ :=
      Encode_lines_of_key U enc _ _ vcard.FieldEmail hw hver rfl rfl
    refine ⟨before, after, ?_⟩
    rw [hwr, hidx, List.map_map]
    congr 2
    apply List.map_congr_left
    intro a _
    simp only [Function.comp, formatLine_email]

theorem googleToCard_email_witness :
    ((NewEncoder Sink.fresh).Encode UnicodeTables.caseless
      (builtCard UnicodeTables.caseless personWithAddresses sampleName [] [] [])).1.w.writes =
      ["BEGIN:VCARD\r\n", "VERSION:3.0\r\n",
        "ADR;TYPE=HOME:;;Ring 1;Wien;;1010;AT\r\n",
        "ADR:PO 7;Flat 2;St James Square;London;Greater London;W1;UK\r\n",
        "EMAIL;TYPE=INTERNET;TYPE=HOME:ada@example.org\r\n",
        "EMAIL;TYPE=INTERNET;TYPE=A\\,B:lovelace@example.org\r\n",
        "FN:Ada L\r\n", "N:L;Ada;;;\r\n", "URL;TYPE=BLOG:https://example.org\r\n",
        "END:VCARD\r\n"] ∧
    ((builtCard UnicodeTables.caseless personWithAddresses sampleName [] [] []).index
        vcard.FieldEmail =
      personWithAddresses.EmailAddresses.map (fun a =>
        { Value := a.Value,
          Params := [("TYPE", ["INTERNET", strings.ToUpper UnicodeTables.caseless a.Typ])],
          Group := "" }) ∧
    ((NewEncoder Sink.fresh).Encode UnicodeTables.caseless
      (builtCard UnicodeTables.caseless personWithAddresses sampleName [] [] [])).2 = none ∧
    ∃ before after : List String,
      ((NewEncoder Sink.fresh).Encode UnicodeTables.caseless
        (builtCard UnicodeTables.caseless personWithAddresses sampleName [] [] [])).1.w.writes =
        (NewEncoder Sink.fresh).w.writes ++ before ++
          personWithAddresses.EmailAddresses.map (fun a =>
            "EMAIL;TYPE=INTERNET;TYPE=" ++
              formatValue (strings.ToUpper UnicodeTables.caseless a.Typ) ++ ":" ++
              formatValue a.Value ++ "\r\n") ++
          after) :=
  ⟨by decide,
    googleToCard_email UnicodeTables.caseless personWithAddresses (some [])
      (builtCard UnicodeTables.caseless personWithAddresses sampleName [] [] []) none
      (NewEncoder Sink.fresh) rfl (by decide)⟩

theorem addressOf_field (U : UnicodeTables) (a : people.Address) :
    (addressOf U a).field =
      { Value := strings.Join [a.PoBox, a.ExtendedAddress, a.StreetAddress, a.City, a.Region,
          a.PostalCode, a.Country] ";",
        Params := if a.Typ ≠ "" then [("TYPE", [strings.ToUpper U a.Typ])] else [],
        Group := "" } := by
  by_cases h : a.Typ = ""
  · simp [addressOf, vcard.Address.field, h]
  · simp [addressOf, vcard.Address.field, h, vcard.Params.Add, mapAppend, vcard.ParamType]

theorem splitChars_of_not_mem (sep : Char) (a : List Char) (h : sep ∉ a) :
    splitChars sep a = [a] := by
  induction a with
  | nil => rfl
  | cons c cs ih =>
    simp only [List.mem_cons, not_or] at h
    have hc : ¬ c = sep := fun e => h.1 e.symm
    simp [splitChars, hc, ih h.2]

theorem splitChars_append (sep : Char) (a rest : List Char) (h : sep ∉ a) :
    splitChars sep (a ++ sep :: rest) = a :: splitChars sep rest := by
  induction a with
  | nil => simp [splitChars]
  | cons c cs ih =>
    simp only [List.mem_cons, not_or] at h
    have hc : ¬ c = sep := fun e => h.1 e.symm
    simp [splitChars, hc, ih h.2]

theorem components_Join_seven (a b c d e f g : String)
    (ha : ';' ∉ a.data) (hb : ';' ∉ b.data) (hc : ';' ∉ c.data) (hd : ';' ∉ d.data)
    (he : ';' ∉ e.data) (hf : ';' ∉ f.data) (hg : ';' ∉ g.data) :
    components (strings.Join [a, b, c, d, e, f, g] ";") ';' = [a, b, c, d, e, f, g] := by
  have hdata : (strings.Join [a, b, c, d, e, f, g] ";").data =
      a.data ++ ';' :: (b.data ++ ';' :: (c.data ++ ';' :: (d.data ++ ';' ::
        (e.data ++ ';' :: (f.data ++ ';' :: g.data))))) := by
    simp [strings.Join, String.data_append]
  simp only [components, hdata, splitChars_append _ _ _ ha, splitChars_append _ _ _ hb,
    splitChars_append _ _ _ hc, splitChars_append _ _ _ hd, splitChars_append _ _ _ he,
    splitChars_append _ _ _ hf, splitChars_of_not_mem _ _ hg, List.map_cons, List.map_nil]

/-- C15, the claim fails: the street of this record holds a `;`; the record is
mapped successfully, and the value of its ADR field has eight `;`-separated
components, the third and fourth of which are pieces of the street, not seven
components equal to the source components. -/
theorem googleToCard_address_with_semicolon :
    ∃ card : vcard.Card,
      googleToCard UnicodeTables.caseless personSemicolonStreet (some []) =
        .done (some card, none) ∧
      personSemicolonStreet.Addresses.map (fun a => a.StreetAddress) = ["Ring 1; Top 3"] ∧
      card.index vcard.FieldAddress =
        [{ Value := ";;Ring 1; Top 3;Wien;;1010;AT", Params := [("TYPE", ["HOME"])],
           Group := "" }] ∧
      components ";;Ring 1; Top 3;Wien;;1010;AT" ';' =
        ["", "", "Ring 1", " Top 3", "Wien", "", "1010", "AT"] ∧
      (components ";;Ring 1; Top 3;Wien;;1010;AT" ';').length = 8 :=
  ⟨_, rfl, by decide, by decide, by decide, by decide⟩

/-- C15, amended: for every successfully mapped record the card holds, under
ADR, one field per source address, in source order; its value is the seven
components post office box, extended address, street, city, region, postal
code and country of the source address, in this order, joined by `;` and
stored as they are; whenever none of the seven contains a `;`, the value
consists of exactly seven `;`-separated components, each equal to the
corresponding source component; the field has the parameter TYPE, with the
upper-cased type as its single value, exactly when the source type is not
empty, and no other parameter. -/
theorem googleToCard_address (U : UnicodeTables) (p : people.Person)
    (groupMap : Option GroupMap) (card : vcard.Card) (e : Option GoError)
    (h : googleToCard U p groupMap = .done (some card, e)) :
    card.index vcard.FieldAddress =
      p.Addresses.map (fun a =>
        { Value := strings.Join [a.PoBox, a.ExtendedAddress, a.StreetAddress, a.City,
            a.Region, a.PostalCode, a.Country] ";",
          Params := if a.Typ ≠ "" then [("TYPE", [strings.ToUpper U a.Typ])] else [],
          Group := "" }) ∧
    (∀ a ∈ p.Addresses,
      (∀ s ∈ [a.PoBox, a.ExtendedAddress, a.StreetAddress, a.City, a.Region, a.PostalCode,
        a.Country], ';' ∉ s.data) →
      components (strings.Join [a.PoBox, a.ExtendedAddress, a.StreetAddress, a.City,
          a.Region, a.PostalCode, a.Country] ";") ';' =
        [a.PoBox, a.ExtendedAddress, a.StreetAddress, a.City, a.Region, a.PostalCode,
          a.Country]) := by
  obtain ⟨pName, rest, g, cgms, dates, -, -, -, -, -, rfl⟩ := googleToCard_done U p _ _ _ h
  refine ⟨?_, ?_⟩
  · rw [builtCard_index]
    simp [vcard.FieldTitle, vcard.FieldVersion, vcard.FieldName, vcard.FieldFormattedName,
      vcard.FieldCategories, vcard.FieldEmail, vcard.FieldTelephone, vcard.FieldBirthday,
      vcard.FieldAddress, vcard.FieldOrganization, vcard.FieldURL, vcard.FieldPhoto,
      vcard.FieldNote, addressOf_field]
  · intro a _ hs
    exact components_Join_seven _ _ _ _ _ _ _ (hs _ (by simp)) (hs _ (by simp))
      (hs _ (by simp)) (hs _ (by simp)) (hs _ (by simp)) (hs _ (by simp)) (hs _ (by simp))

theorem googleToCard_address_witness :
    (builtCard UnicodeTables.caseless personWithAddresses sampleName [] [] []).index
        vcard.FieldAddress =
      [{ Value := ";;Ring 1;Wien;;1010;AT", Params := [("TYPE", ["HOME"])], Group := "" },
       { Value := "PO 7;Flat 2;St James Square;London;Greater London;W1;UK", Params := [],
         Group := "" }] ∧
    components ";;Ring 1;Wien;;1010;AT" ';' = ["", "", "Ring 1", "Wien", "", "1010", "AT"] ∧
    ((builtCard UnicodeTables.caseless personWithAddresses sampleName [] [] []).index
        vcard.FieldAddress =
      personWithAddresses.Addresses.map (fun a =>
        { Value := strings.Join [a.PoBox, a.ExtendedAddress, a.StreetAddress, a.City,
            a.Region, a.PostalCode, a.Country] ";",
          Params := if a.Typ ≠ "" then
            [("TYPE", [strings.ToUpper UnicodeTables.caseless a.Typ])] else [],
          Group := "" }) ∧
    (∀ a ∈ personWithAddresses.Addresses,
      (∀ s ∈ [a.PoBox, a.ExtendedAddress, a.StreetAddress, a.City, a.Region, a.PostalCode,
        a.Country], ';' ∉ s.data) →
      components (strings.Join [a.PoBox, a.ExtendedAddress, a.StreetAddress, a.City,
          a.Region, a.PostalCode, a.Country] ";") ';' =
        [a.PoBox, a.ExtendedAddress, a.StreetAddress, a.City, a.Region, a.PostalCode,
          a.Country])) :=
  ⟨by decide, by decide,
    googleToCard_address UnicodeTables.caseless personWithAddresses (some [])
      (builtCard UnicodeTables.caseless personWithAddresses sampleName [] [] []) none rfl⟩

/-! ## Zero-padded decimals -/

theorem decimalDigits_small (fuel n : Nat) (hf : 0 < fuel) (hn : n < 10) :
    decimalDigits fuel n = [digitChar n] := by
  obtain ⟨f, rfl⟩ : ∃ f, fuel = f + 1 := ⟨fuel - 1, by omega⟩
  simp [decimalDigits, hn, digitChar]

theorem decimalDigits_step (fuel n : Nat) (hn : 10 ≤ n) :
    decimalDigits (fuel + 1) n = decimalDigits fuel (n / 10) ++ [digitChar (n % 10)] := by
  have : ¬ n < 10 := by omega
  simp [decimalDigits, this, digitChar]

theorem fixedDigits_zero (w : Nat) : fixedDigits w 0 = List.replicate w '0' := by
  induction w with
  | zero => rfl
  | succ w ih =>
    have h0 : digitChar (0 % 10) = '0' := by decide
    simp only [fixedDigits, Nat.zero_div, ih, h0]
    exact (List.replicate_succ' w '0').symm

theorem pad_decimalDigits (w : Nat) :
    ∀ fuel n : Nat, 1 ≤ w → n < 10 ^ w → n < fuel →
      List.replicate (w - (decimalDigits fuel n).length) '0' ++ decimalDigits fuel n =
        fixedDigits w n := by
  induction w with
  | zero => intro fuel n hw; omega
  | succ w ih =>
    intro fuel n _ hn hf
    by_cases hsmall : n < 10
    · rw [decimalDigits_small fuel n (by omega) hsmall]
      have hdiv : n / 10 = 0 := by omega
      have hmod : n % 10 = n := by omega
      simp [fixedDigits, hdiv, hmod, fixedDigits_zero]
    · obtain ⟨f, rfl⟩ : ∃ f, fuel = f + 1 := ⟨fuel - 1, by omega⟩
      have hw1 : 1 ≤ w := by
        rcases Nat.eq_zero_or_pos w with h0 | h0
        · subst h0
          simp at hn
          omega
        · exact h0
      have hpow : 10 ^ (w + 1) = 10 * 10 ^ w := by rw [pow_succ, Nat.mul_comm]
      have hrec := ih f (n / 10) hw1 (by omega) (by omega)
      rw [decimalDigits_step f n (by omega)]
      simp only [fixedDigits, List.length_append, List.length_singleton]
      rw [← hrec, ← List.append_assoc]
      congr 2
      congr 1
      omega

theorem zeroPadded_ofNat (w n : Nat) (hw : 1 ≤ w) (hn : n < 10 ^ w) :
    fmt.zeroPadded w (n : Int) = ⟨fixedDigits w n⟩ := by
  have hneg : ¬ ((n : Int) < 0) := by omega
  simp only [fmt.zeroPadded, hneg, if_false, Int.natAbs_ofNat, List.length_nil, Nat.sub_zero,
    List.nil_append]
  exact congrArg String.mk (pad_decimalDigits w (n + 1) n hw hn (by omega))

theorem fixedDigits_append (a b x r : Nat) (hr : r < 10 ^ b) :
    fixedDigits (a + b) (x * 10 ^ b + r) = fixedDigits a x ++ fixedDigits b r := by
  induction b generalizing r with
  | zero =>
    have : r = 0 := by simpa using hr
    subst this
    simp [fixedDigits]
  | succ b ih =>
    have hpow : 10 ^ (b + 1) = 10 * 10 ^ b := by rw [pow_succ, Nat.mul_comm]
    have hmul : x * 10 ^ (b + 1) = 10 * (x * 10 ^ b) := by
      rw [hpow, Nat.mul_left_comm]
    have hdiv : (x * 10 ^ (b + 1) + r) / 10 = x * 10 ^ b + r / 10 := by
      rw [hmul]
      omega
    have hmod : (x * 10 ^ (b + 1) + r) % 10 = r % 10 := by
      rw [hmul]
      omega
    have hsum : a + (b + 1) = (a + b) + 1 := rfl
    rw [hsum]
    simp only [fixedDigits, hdiv, hmod]
    rw [ih (r / 10) (by omega), List.append_assoc]

theorem digitChar_isDigit (k : Nat) (hk : k < 10) : (digitChar k).isDigit = true := by
  interval_cases k <;> decide

theorem fixedDigits_isDigit (w n : Nat) : ∀ c ∈ fixedDigits w n, c.isDigit = true := by
  induction w generalizing n with
  | zero => intro c hc; cases hc
  | succ w ih =>
    intro c hc
    simp only [fixedDigits, List.mem_append, List.mem_singleton] at hc
    rcases hc with hc | rfl
    · exact ih _ c hc
    · exact digitChar_isDigit _ (Nat.mod_lt _ (by decide))

theorem fixedDigits_length (w n : Nat) : (fixedDigits w n).length = w := by
  induction w generalizing n with
  | zero => rfl
  | succ w ih => simp [fixedDigits, ih]

theorem birthdayValue_ofNat (y m d : Nat) (hy : y ≤ 9999) (hm : m ≤ 99) (hd : d ≤ 99) :
    birthdayValue { Day := d, Month := m, Year := y } =
      ⟨fixedDigits 4 y ++ fixedDigits 2 m ++ fixedDigits 2 d⟩ ∧
    fmt.zeroPadded 8 ((y : Int) * 10000 + (m : Int) * 100 + (d : Int)) =
      ⟨fixedDigits 4 y ++ fixedDigits 2 m ++ fixedDigits 2 d⟩ := by
  constructor
  · simp only [birthdayValue, fmt.Sprintf_04d02d02d]
    rw [zeroPadded_ofNat 4 y (by decide) (by norm_num; omega),
      zeroPadded_ofNat 2 m (by decide) (by norm_num; omega),
      zeroPadded_ofNat 2 d (by decide) (by norm_num; omega)]
    rfl
  · have hcast : (y : Int) * 10000 + (m : Int) * 100 + (d : Int) =
        ((y * 10 ^ 4 + (m * 10 ^ 2 + d) : Nat) : Int) := by
      push_cast
      ring
    rw [hcast, zeroPadded_ofNat 8 _ (by decide) (by norm_num; omega)]
    have h1 := fixedDigits_append 4 4 y (m * 10 ^ 2 + d) (by norm_num; omega)
    have h2 := fixedDigits_append 2 2 m d (by norm_num; omega)
    simp only [Nat.reduceAdd] at h1 h2
    rw [h1, h2, List.append_assoc]

/-- C16: for every successfully mapped record the card holds, under the
birthday key, one plain field per birthday entry, in source order, whose value
is the formatted date; for a date with 0 <= year <= 9999, 0 <= month <= 99 and
0 <= day <= 99 this value is a string of exactly eight decimal digits, the
four-digit decimal of the year, then the two-digit decimal of the month, then
that of the day, which is the zero-padded eight-digit decimal of
year * 10000 + month * 100 + day. -/
theorem googleToCard_birthday (U : UnicodeTables) (p : people.Person)
    (groupMap : Option GroupMap) (card : vcard.Card) (e : Option GoError)
    (h : googleToCard U p groupMap = .done (some card, e)) :
    ∃ dates : List people.Date,
      p.Birthdays.map (fun b => b.Date) = dates.map some ∧
      card.index vcard.FieldBirthday =
        dates.map (fun d => { Value := birthdayValue d, Params := [], Group := "" }) ∧
      ∀ d ∈ dates, 0 ≤ d.Year → d.Year ≤ 9999 → 0 ≤ d.Month → d.Month ≤ 99 → 0 ≤ d.Day →
        d.Day ≤ 99 →
        (birthdayValue d).data =
          fixedDigits 4 d.Year.toNat ++ fixedDigits 2 d.Month.toNat ++
            fixedDigits 2 d.Day.toNat ∧
        (birthdayValue d).data.length = 8 ∧
        (∀ c ∈ (birthdayValue d).data, c.isDigit = true) ∧
        birthdayValue d = fmt.zeroPadded 8 (d.Year * 10000 + d.Month * 100 + d.Day) := by
  obtain ⟨pName, rest, g, cgms, dates, -, -, -, -, hb, rfl⟩ := googleToCard_done U p _ _ _ h
  refine ⟨dates, hb, ?_, ?_⟩
  · rw [builtCard_index]
    simp [vcard.FieldTitle, vcard.FieldVersion, vcard.FieldName, vcard.FieldFormattedName,
      vcard.FieldCategories, vcard.FieldEmail, vcard.FieldTelephone, vcard.FieldBirthday,
      vcard.FieldAddress, vcard.FieldOrganization, vcard.FieldURL, vcard.FieldPhoto,
      vcard.FieldNote, vcard.valueField]
  · intro d _ hy0 hy1 hm0 hm1 hd0 hd1
    obtain ⟨day, month, year⟩ := d
    simp only at hy0 hy1 hm0 hm1 hd0 hd1
    obtain ⟨y, rfl⟩ := Int.eq_ofNat_of_zero_le hy0
    obtain ⟨m, rfl⟩ := Int.eq_ofNat_of_zero_le hm0
    obtain ⟨dd, rfl⟩ := Int.eq_ofNat_of_zero_le hd0
    have hy : y ≤ 9999 := by omega
    have hm : m ≤ 99 := by omega
    have hd : dd ≤ 99 := by omega
    obtain ⟨hval, hpad⟩ := birthdayValue_ofNat y m dd hy hm hd
    simp only [Int.toNat_ofNat]
    rw [hval, hpad]
    refine ⟨rfl, by simp [fixedDigits_length], ?_, rfl⟩
    intro c hc
    simp only [List.mem_append] at hc
    rcases hc with (hc | hc) | hc <;> exact fixedDigits_isDigit _ _ c hc

theorem googleToCard_birthday_witness :
    (builtCard UnicodeTables.caseless personTwoBirthdays sampleName [] []
        [{ Day := 9, Month := 3, Year := 1990 }, { Day := 31, Month := 12, Year := 0 }]).index
        vcard.FieldBirthday =
      [{ Value := "19900309", Params := [], Group := "" },
       { Value := "00001231", Params := [], Group := "" }] ∧
    ∃ dates : List people.Date,
      personTwoBirthdays.Birthdays.map (fun b => b.Date) = dates.map some ∧
      (builtCard UnicodeTables.caseless personTwoBirthdays sampleName [] []
        [{ Day := 9, Month := 3, Year := 1990 }, { Day := 31, Month := 12, Year := 0 }]).index
        vcard.FieldBirthday =
        dates.map (fun d => { Value := birthdayValue d, Params := [], Group := "" }) ∧
      ∀ d ∈ dates, 0 ≤ d.Year → d.Year ≤ 9999 → 0 ≤ d.Month → d.Month ≤ 99 → 0 ≤ d.Day →
        d.Day ≤ 99 →
        (birthdayValue d).data =
          fixedDigits 4 d.Year.toNat ++ fixedDigits 2 d.Month.toNat ++
            fixedDigits 2 d.Day.toNat ∧
        (birthdayValue d).data.length = 8 ∧
        (∀ c ∈ (birthdayValue d).data, c.isDigit = true) ∧
        birthdayValue d = fmt.zeroPadded 8 (d.Year * 10000 + d.Month * 100 + d.Day) :=
  ⟨by decide,
    googleToCard_birthday UnicodeTables.caseless personTwoBirthdays (some [])
      (builtCard UnicodeTables.caseless personTwoBirthdays sampleName [] []
        [{ Day := 9, Month := 3, Year := 1990 }, { Day := 31, Month := 12, Year := 0 }])
      none rfl⟩

/-! ## Parameters of the mapped fields -/

theorem mem_ite_nil {α : Type} {P : Prop} [Decidable P] {l : List α} {x : α}
    (h : x ∈ (if P then l else [])) : x ∈ l := by
  split_ifs at h
  · exact h
  · cases h

theorem builtCard_params (U : UnicodeTables) (p : people.Person) (pName : people.Name)
    (groupMap : GroupMap) (cgms : List people.ContactGroupMembership)
    (dates : List people.Date) (k : String) :
    ∀ f ∈ (builtCard U p pName groupMap cgms dates).index k,
      f.Params.length ≤ 1 ∧ ∀ kv ∈ f.Params, kv.1 = vcard.ParamType := by
  intro f hf
  rw [builtCard_index] at hf
  simp only [List.mem_append] at hf
  have hplain : ∀ v : String, f = vcard.valueField v →
      f.Params.length ≤ 1 ∧ ∀ kv ∈ f.Params, kv.1 = vcard.ParamType := by
    intro v hv
    subst hv
    simp [vcard.valueField]
  rcases hf with (((((((((((hf | hf) | hf) | hf) | hf) | hf) | hf) | hf) | hf) | hf) | hf) |
    hf) | hf
  · have := mem_ite_nil hf
    exact hplain _ (List.mem_singleton.mp this)
  · have := List.mem_singleton.mp (mem_ite_nil hf)
    subst this
    simp [vcard.Name.field, nameOf]
  · have := mem_ite_nil hf
    exact hplain _ (List.mem_singleton.mp this)
  · obtain ⟨cgm, _, rfl⟩ := List.mem_map.mp (mem_ite_nil hf)
    exact hplain _ rfl
  · obtain ⟨a, _, rfl⟩ := List.mem_map.mp (mem_ite_nil hf)
    simp [emailField_eq, vcard.ParamType]
  · obtain ⟨a, _, rfl⟩ := List.mem_map.mp (mem_ite_nil hf)
    simp [phoneField_eq, vcard.ParamType]
  · obtain ⟨a, _, rfl⟩ := List.mem_map.mp (mem_ite_nil hf)
    exact hplain _ rfl
  · obtain ⟨a, _, rfl⟩ := List.mem_map.mp (mem_ite_nil hf)
    rw [addressOf_field]
    by_cases ht : a.Typ = "" <;> simp [ht, vcard.ParamType]
  · obtain ⟨a, _, rfl⟩ := List.mem_map.mp (mem_ite_nil hf)
    exact hplain _ rfl
  · have := mem_ite_nil (mem_ite_nil hf)
    exact hplain _ (List.mem_singleton.mp this)
  · obtain ⟨a, _, rfl⟩ := List.mem_map.mp (mem_ite_nil hf)
    simp [urlField, vcard.Params.Add, mapAppend]
  · obtain ⟨a, _, rfl⟩ := List.mem_map.mp (mem_ite_nil hf)
    exact hplain _ rfl
  · obtain ⟨a, _, rfl⟩ := List.mem_map.mp (mem_ite_nil hf)
    exact hplain _ rfl

theorem perm_eq_of_length_le_one {α : Type} {l l' : List α} (hp : l'.Perm l)
    (hl : l.length ≤ 1) : l' = l := by
  match l, hl with
  | [], _ => exact List.Perm.eq_nil hp
  | [a], _ => exact List.perm_singleton.mp hp

theorem Reordered_fields_eq {fs fs' : List vcard.Field}
    (h : List.Forall₂ vcard.Field.Reordered fs fs')
    (hfs : ∀ f ∈ fs, f.Params.length ≤ 1) : fs' = fs := by
  induction h with
  | nil => rfl
  | @cons f f' fs fs' hf _ ih =>
    have hp := perm_eq_of_length_le_one hf.2.2 (hfs f (by simp))
    have hff : f' = f := by
      cases f
      cases f'
      simp only [vcard.Field.Reordered] at hf
      simp only at hp
      simp [hf.1, hf.2.1, hp]
    rw [hff, ih (fun g hg => hfs g (List.mem_cons_of_mem _ hg))]

theorem ParamsReordered_eq {c c' : vcard.Card} (h : c.ParamsReordered c')
    (hc : ∀ kv ∈ c, ∀ f ∈ kv.2, f.Params.length ≤ 1) : c' = c := by
  induction h with
  | nil => rfl
  | @cons kv kv' c c' hkv _ ih =>
    have hfs := Reordered_fields_eq hkv.2 (hc kv (by simp))
    have hkk : kv' = kv := Prod.ext hkv.1 hfs
    rw [hkk, ih (fun kv0 h0 => hc kv0 (List.mem_cons_of_mem _ h0))]

/-- C19: every field of a card that `googleToCard` returns has at most one
parameter name, and that name is TYPE; hence `Encode` of the returned card
gives the same result, on every sink, whatever the order in which the
parameter maps of the fields and the keys of the card are visited. -/
theorem Encode_of_googleToCard_deterministic (U : UnicodeTables) (p : people.Person)
    (groupMap : Option GroupMap) (card : vcard.Card) (e : Option GoError)
    (h : googleToCard U p groupMap = .done (some card, e)) :
    (∀ kv ∈ card, ∀ f ∈ kv.2,
      f.Params.length ≤ 1 ∧ ∀ param ∈ f.Params, param.1 = vcard.ParamType) ∧
    ∀ (enc : Encoder) (c' c'' : vcard.Card), card.ParamsReordered c' → c''.Perm c' →
      enc.Encode U c'' = enc.Encode U card := by
  obtain ⟨pName, rest, g, cgms, dates, -, -, -, -, -, rfl⟩ := googleToCard_done U p _ _ _ h
  have hbuilt := builtCard_Built U p pName g cgms dates
  have hparams : ∀ kv ∈ builtCard U p pName g cgms dates, ∀ f ∈ kv.2,
      f.Params.length ≤ 1 ∧ ∀ param ∈ f.Params, param.1 = vcard.ParamType := by
    intro kv hkv f hf
    have hidx := mapIndex_of_mem _ kv.1 kv.2 hbuilt.1 hkv
    exact builtCard_params U p pName g cgms dates kv.1 f (by
      unfold vcard.Card.index
      rw [hidx]
      exact hf)
  refine ⟨hparams, ?_⟩
  intro enc c' c'' hre hperm
  have hc' := ParamsReordered_eq hre (fun kv hkv f hf => (hparams kv hkv f hf).1)
  subst hc'
  exact Encode_perm U enc hbuilt.1 hperm

theorem Encode_of_googleToCard_deterministic_witness :
    (∀ kv ∈ builtCard UnicodeTables.caseless personWithAddresses sampleName [] [] [],
      ∀ f ∈ kv.2,
        f.Params.length ≤ 1 ∧ ∀ param ∈ f.Params, param.1 = vcard.ParamType) ∧
    ∀ (enc : Encoder) (c' c'' : vcard.Card),
      (builtCard UnicodeTables.caseless personWithAddresses sampleName [] [] []).ParamsReordered
        c' →
      c''.Perm c' →
      enc.Encode UnicodeTables.caseless c'' =
        enc.Encode UnicodeTables.caseless
          (builtCard UnicodeTables.caseless personWithAddresses sampleName [] [] []) :=
  Encode_of_googleToCard_deterministic UnicodeTables.caseless personWithAddresses (some [])
    (builtCard UnicodeTables.caseless personWithAddresses sampleName [] [] []) none rfl

/-! ## Write failures -/

theorem writeAll_append (a b : List String) (w : Sink) :
    writeAll (a ++ b) w =
      match writeAll a w with
      | (w', some err) => (w', some err)
      | (w', none) => writeAll b w' := by
  induction a generalizing w with
  | nil => rfl
  | cons l ls ih =>
    simp only [List.cons_append, writeAll]
    rcases hws : io.WriteString w l with ⟨w1, _ | err⟩
    · exact ih _
    · rfl

theorem writeFields_eq_writeAll (k : String) (fs : List vcard.Field) (w : Sink) :
    writeFields k fs w = writeAll (fs.map (fun f => formatLine k f ++ "\r\n")) w := by
  induction fs generalizing w with
  | nil => rfl
  | cons f fs ih =>
    simp only [writeFields, List.map_cons, writeAll]
    rcases hws : io.WriteString w (formatLine k f ++ "\r\n") with ⟨w1, _ | err⟩
    · exact ih _
    · rfl

theorem writeKeys_eq_writeAll (U : UnicodeTables) (c : vcard.Card) (ks : List String)
    (w : Sink) :
    writeKeys U c ks w =
      writeAll ((ks.filter (fun k => !strings.EqualFold U k vcard.FieldVersion)).flatMap
        (keyLines U c)) w := by
  induction ks generalizing w with
  | nil => rfl
  | cons k ks ih =>
    cases hv : strings.EqualFold U k vcard.FieldVersion with
    | true => simp [writeKeys, hv, ih]
    | false =>
      have hfilter : (k :: ks).filter (fun k => !strings.EqualFold U k vcard.FieldVersion) =
          k :: ks.filter (fun k => !strings.EqualFold U k vcard.FieldVersion) := by
        simp [hv]
      rw [hfilter, List.flatMap_cons, writeAll_append]
      cases hc : strings.EqualFold U k vcard.FieldCategories with
      | true =>
        have hlines : keyLines U c k = [formatLineMultiValue k (c.index k) ++ "\r\n"] := by
          simp [keyLines, hc]
        rw [hlines]
        simp only [writeKeys, hv, hc, if_true, Bool.false_eq_true, if_false, writeAll]
        rcases hws : io.WriteString w
          (formatLineMultiValue k (c.index k) ++ "\r\n") with ⟨w1, _ | err⟩
        · exact ih _
        · rfl
      | false =>
        have hlines : keyLines U c k =
            (c.index k).map (fun f => formatLine k f ++ "\r\n") := by
          simp [keyLines, hc]
        rw [hlines]
        simp only [writeKeys, hv, hc, Bool.false_eq_true, if_false, writeFields_eq_writeAll]
        rcases hws : writeAll ((c.index k).map (fun f => formatLine k f ++ "\r\n")) w
          with ⟨w1, _ | err⟩
        · exact ih _
        · rfl

theorem Encode_eq_writeAll (U : UnicodeTables) (enc : Encoder) (c : vcard.Card) :
    enc.Encode U c =
      match c.Get vcard.FieldVersion with
      | some _ => ({ w := (writeAll (encodeLines U c) enc.w).1 },
          (writeAll (encodeLines U c) enc.w).2)
      | none =>
        match writeAll (encodeLines U c) enc.w with
        | (w, some err) => ({ w := w }, some err)
        | (w, none) => ({ w := w }, some "vcard: VERSION field missing") := by
  cases hv : c.Get vcard.FieldVersion with
  | none =>
    simp only [Encoder.Encode, encodeLines, hv, writeAll]
    rcases hws : io.WriteString enc.w "BEGIN:VCARD\r\n" with ⟨w1, _ | err⟩ <;> rfl
  | some version =>
    simp only [Encoder.Encode, encodeLines, hv, writeAll, List.cons_append, List.nil_append,
      writeKeys_eq_writeAll]
    rcases hws : io.WriteString enc.w "BEGIN:VCARD\r\n" with ⟨w1, _ | err⟩
    · simp only []
      rcases hws2 : io.WriteString w1 (formatLine vcard.FieldVersion version ++ "\r\n")
        with ⟨w2, _ | err⟩
      · simp only [writeAll_append]
        rcases hws3 : writeAll (((sort.Strings c.keys).filter
          (fun k => !strings.EqualFold U k vcard.FieldVersion)).flatMap (keyLines U c)) w2
          with ⟨w3, _ | err⟩
        · simp only [writeAll]
          rcases hws4 : io.WriteString w3 "END:VCARD\r\n" with ⟨w4, _ | err⟩ <;> rfl
        · rfl
      · rfl
    · rfl

theorem writeAll_first_failure (done : List String) (l : String) (todo : List String)
    (fault : WriteFault) (rest : List (Option WriteFault)) (w : Sink)
    (hscript : w.script = List.replicate done.length none ++ some fault :: rest) :
    writeAll (done ++ l :: todo) w =
      ({ writes := w.writes ++ done ++ [⟨l.data.take fault.accepted⟩], script := rest },
        some fault.err) := by
  induction done generalizing w with
  | nil =>
    cases w with
    | mk writes script =>
      simp only [List.length_nil, List.replicate_zero, List.nil_append] at hscript
      subst hscript
      simp [writeAll, io.WriteString]
  | cons d done ih =>
    cases w with
    | mk writes script =>
      simp only [List.length_cons, List.replicate_succ, List.cons_append] at hscript
      subst hscript
      simp only [List.cons_append, writeAll, io.WriteString]
      have hrec := ih
        { writes := writes ++ [d],
          script := List.replicate done.length none ++ some fault :: rest } rfl
      refine hrec.trans ?_
      simp

theorem take_append_drop_string (l : String) (n : Nat) :
    (⟨l.data.take n⟩ : String) ++ ⟨l.data.drop n⟩ = l := by
  apply String.ext
  simp [String.data_append]

theorem Encode_reliable_writes (U : UnicodeTables) (enc : Encoder) (c : vcard.Card)
    (hw : enc.w.reliable) :
    (enc.Encode U c).1.w.writes = enc.w.writes ++ encodeLines U c := by
  cases hv : c.Get vcard.FieldVersion with
  | none =>
    rw [Encode_reliable_missing U enc c hw hv]
    simp [encodeLines, hv, Sink.push]
  | some version =>
    rw [Encode_reliable_present U enc c version hw hv]
    simp [encodeLines, hv, Sink.push]

/-- C12: take the writes `Encode` attempts on a never-failing sink,
`done ++ l :: todo`, and a sink on which the write of `l` is the first to fail,
the sink taking only the first `fault.accepted` code points of `l`.  Then
`Encode` returns the error of that write; it has made exactly the writes of
`done` and the failed one, and attempts none of `todo`; what it has written is
a beginning of what it writes on the never-failing sink. -/
theorem Encode_first_failure (U : UnicodeTables) (enc : Encoder) (c : vcard.Card)
    (done : List String) (l : String) (todo : List String) (fault : WriteFault)
    (rest : List (Option WriteFault))
    (hlines : encodeLines U c = done ++ l :: todo)
    (hscript : enc.w.script = List.replicate done.length none ++ some fault :: rest) :
    (∀ enc' : Encoder, enc'.w.reliable →
      (enc'.Encode U c).1.w.writes = enc'.w.writes ++ (done ++ l :: todo)) ∧
    (enc.Encode U c).2 = some fault.err ∧
    (enc.Encode U c).1.w.writes =
      enc.w.writes ++ done ++ [⟨l.data.take fault.accepted⟩] ∧
    (enc.Encode U c).1.w.script = rest ∧
    (∃ unwritten : String,
      String.join (done ++ l :: todo) =
        String.join (done ++ [⟨l.data.take fault.accepted⟩]) ++ unwritten) ∧
    (enc.Encode U c).1.w.bytes =
      enc.w.bytes ++ String.join (done ++ [⟨l.data.take fault.accepted⟩]) := by
  have hall := writeAll_first_failure done l todo fault rest enc.w hscript
  have henc : enc.Encode U c =
      ({ w := { writes := enc.w.writes ++ done ++ [⟨l.data.take fault.accepted⟩],
                script := rest } }, some fault.err) := by
    rw [Encode_eq_writeAll, hlines, hall]
    cases c.Get vcard.FieldVersion <;> rfl
  refine ⟨fun enc' hw' => ?_, ?_, ?_, ?_, ?_, ?_⟩
  · rw [Encode_reliable_writes U enc' c hw', hlines]
  · rw [henc]
  · rw [henc]
  · rw [henc]
  · refine ⟨⟨l.data.drop fault.accepted⟩ ++ String.join todo, ?_⟩
    simp only [join_append, join_cons, join_nil, String.append_empty, String.append_assoc]
    rw [← String.append_assoc (⟨l.data.take fault.accepted⟩ : String),
      take_append_drop_string]
  · rw [henc]
    simp only [Sink.bytes, join_append, String.append_assoc]

theorem Encode_first_failure_witness :
    ((({ w := sinkFailingThird } : Encoder).Encode UnicodeTables.caseless sampleCard).2 =
        some "disk full" ∧
      (({ w := sinkFailingThird } : Encoder).Encode UnicodeTables.caseless
          sampleCard).1.w.writes =
        ["earlier output\r\n", "BEGIN:VCARD\r\n", "VERSION:3.0\r\n", "ADR:"]) ∧
    ((∀ enc' : Encoder, enc'.w.reliable →
      (enc'.Encode UnicodeTables.caseless sampleCard).1.w.writes =
        enc'.w.writes ++ (["BEGIN:VCARD\r\n", "VERSION:3.0\r\n"] ++
          "ADR:;;Ring 1;Wien;;1010;AT\r\n" ::
            ["EMAIL;TYPE=INTERNET;TYPE=HOME:ada@example.org\r\n", "FN:Ada L\r\n",
              "END:VCARD\r\n"])) ∧
    (({ w := sinkFailingThird } : Encoder).Encode UnicodeTables.caseless sampleCard).2 =
      some ({ accepted := 4, err := "disk full" } : WriteFault).err ∧
    (({ w := sinkFailingThird } : Encoder).Encode UnicodeTables.caseless sampleCard).1.w.writes =
      ({ w := sinkFailingThird } : Encoder).w.writes ++
        ["BEGIN:VCARD\r\n", "VERSION:3.0\r\n"] ++
        [⟨"ADR:;;Ring 1;Wien;;1010;AT\r\n".data.take
          ({ accepted := 4, err := "disk full" } : WriteFault).accepted⟩] ∧
    (({ w := sinkFailingThird } : Encoder).Encode UnicodeTables.caseless sampleCard).1.w.script =
      [none] ∧
    (∃ unwritten : String,
      String.join (["BEGIN:VCARD\r\n", "VERSION:3.0\r\n"] ++
          "ADR:;;Ring 1;Wien;;1010;AT\r\n" ::
            ["EMAIL;TYPE=INTERNET;TYPE=HOME:ada@example.org\r\n", "FN:Ada L\r\n",
              "END:VCARD\r\n"]) =
        String.join (["BEGIN:VCARD\r\n", "VERSION:3.0\r\n"] ++
          [⟨"ADR:;;Ring 1;Wien;;1010;AT\r\n".data.take
            ({ accepted := 4, err := "disk full" } : WriteFault).accepted⟩]) ++ unwritten) ∧
    (({ w := sinkFailingThird } : Encoder).Encode UnicodeTables.caseless sampleCard).1.w.bytes =
      ({ w := sinkFailingThird } : Encoder).w.bytes ++
        String.join (["BEGIN:VCARD\r\n", "VERSION:3.0\r\n"] ++
          [⟨"ADR:;;Ring 1;Wien;;1010;AT\r\n".data.take
            ({ accepted := 4, err := "disk full" } : WriteFault).accepted⟩])) :=
  ⟨by decide,
    Encode_first_failure UnicodeTables.caseless { w := sinkFailingThird } sampleCard
      ["BEGIN:VCARD\r\n", "VERSION:3.0\r\n"] "ADR:;;Ring 1;Wien;;1010;AT\r\n"
      ["EMAIL;TYPE=INTERNET;TYPE=HOME:ada@example.org\r\n", "FN:Ada L\r\n", "END:VCARD\r\n"]
      { accepted := 4, err := "disk full" } [none] (by decide) (by decide)⟩

/-! ## Lines hold no line feed -/

theorem mem_mapIndex {α : Type} (m : List (String × List α)) (k : String) (x : α)
    (h : x ∈ mapIndex m k) : ∃ kv ∈ m, kv.1 = k ∧ x ∈ kv.2 := by
  induction m with
  | nil => cases h
  | cons kv0 rest ih =>
    obtain ⟨k0, vs⟩ := kv0
    by_cases h0 : k0 = k
    · simp only [mapIndex, h0, if_true] at h
      exact ⟨(k0, vs), by simp, h0, h⟩
    · simp only [mapIndex, h0, if_false] at h
      obtain ⟨kv, hkv, hk, hx⟩ := ih h
      exact ⟨kv, List.mem_cons_of_mem _ hkv, hk, hx⟩

theorem foldl_values_no_lf (pk : String) (pvs : List String) (s : String)
    (hpk : '\n' ∉ pk.data) (hs : '\n' ∉ s.data) :
    '\n' ∉ (pvs.foldl (fun s pv => s ++ (";" ++ formatParam pk pv)) s).data := by
  induction pvs generalizing s with
  | nil => exact hs
  | cons pv pvs ih =>
    apply ih
    simp only [formatParam, String.data_append, List.mem_append, not_or]
    exact ⟨hs, by decide, hpk, by decide, formatValue_no_lf pv⟩

theorem foldl_params_no_lf (params : vcard.Params) (s : String)
    (hp : ∀ param ∈ params, '\n' ∉ param.1.data) (hs : '\n' ∉ s.data) :
    '\n' ∉ (params.foldl (fun s kv =>
      kv.2.foldl (fun s pv => s ++ (";" ++ formatParam kv.1 pv)) s) s).data := by
  induction params generalizing s with
  | nil => exact hs
  | cons kv params ih =>
    apply ih _ (fun param h => hp param (List.mem_cons_of_mem _ h))
    exact foldl_values_no_lf kv.1 kv.2 s (hp kv (by simp)) hs

theorem formatLine_no_lf (key : String) (f : vcard.Field) (hkey : '\n' ∉ key.data)
    (hg : '\n' ∉ f.Group.data) (hp : ∀ param ∈ f.Params, '\n' ∉ param.1.data) :
    '\n' ∉ (formatLine key f).data := by
  have hstart : '\n' ∉ ((if f.Group ≠ "" then "" ++ (f.Group ++ ".") else "") ++ key).data := by
    split_ifs
    · simp only [String.data_append, List.mem_append, not_or]
      exact ⟨⟨by decide, hg, by decide⟩, hkey⟩
    · simp only [String.data_append, List.mem_append, not_or]
      exact ⟨by decide, hkey⟩
  simp only [formatLine, String.data_append, List.mem_append, not_or]
  exact ⟨foldl_params_no_lf f.Params _ hp hstart, by decide, formatValue_no_lf _⟩

theorem formatLineMultiValue_no_lf (key : String) (fields : List vcard.Field)
    (hkey : '\n' ∉ key.data) : '\n' ∉ (formatLineMultiValue key fields).data := by
  simp only [formatLineMultiValue, String.data_append, List.mem_append, not_or]
  refine ⟨⟨by decide, hkey⟩, by decide, Join_no_lf _ _ ?_ (by decide)⟩
  intro v hv
  obtain ⟨f, _, rfl⟩ := List.mem_map.mp hv
  exact formatValue_no_lf _

theorem encodeLines_no_lf (U : UnicodeTables) (c : vcard.Card)
    (hkeys : ∀ k ∈ c.keys, '\n' ∉ k.data)
    (hfields : ∀ kv ∈ c, ∀ f ∈ kv.2,
      '\n' ∉ f.Group.data ∧ ∀ param ∈ f.Params, '\n' ∉ param.1.data) :
    ∀ l ∈ encodeLines U c, ∃ body : String, l = body ++ "\r\n" ∧ '\n' ∉ body.data := by
  have hidx : ∀ k, ∀ f ∈ c.index k,
      '\n' ∉ f.Group.data ∧ ∀ param ∈ f.Params, '\n' ∉ param.1.data := by
    intro k f hf
    obtain ⟨kv, hkv, _, hfkv⟩ := mem_mapIndex c k f hf
    exact hfields kv hkv f hfkv
  intro l hl
  unfold encodeLines at hl
  cases hv : c.Get vcard.FieldVersion with
  | none =>
    rw [hv] at hl
    simp only [List.mem_singleton] at hl
    exact ⟨"BEGIN:VCARD", hl, by decide⟩
  | some version =>
    rw [hv] at hl
    have hvmem : version ∈ c.index vcard.FieldVersion := by
      unfold vcard.Card.Get at hv
      exact List.mem_of_mem_head? hv
    simp only [List.mem_append, List.mem_cons, List.mem_singleton, List.not_mem_nil, or_false,
      List.mem_flatMap] at hl
    rcases hl with ((rfl | rfl) | ⟨k, hk, hlk⟩) | rfl
    · exact ⟨"BEGIN:VCARD", rfl, by decide⟩
    · exact ⟨_, rfl, formatLine_no_lf _ _ (by decide) (hidx _ _ hvmem).1 (hidx _ _ hvmem).2⟩
    · have hkmem : k ∈ c.keys := ((mem_bodyKeys U c k).mp hk).1
      unfold keyLines at hlk
      split_ifs at hlk
      · simp only [List.mem_singleton] at hlk
        exact ⟨_, hlk, formatLineMultiValue_no_lf _ _ (hkeys k hkmem)⟩
      · obtain ⟨f, hf, rfl⟩ := List.mem_map.mp hlk
        exact ⟨_, rfl, formatLine_no_lf _ _ (hkeys k hkmem) (hidx k f hf).1 (hidx k f hf).2⟩
    · exact ⟨"END:VCARD", rfl, by decide⟩

/-! ## Counting line ends -/

theorem countCRLF_line (body rest : List Char) (h : '\n' ∉ body) :
    countCRLF (body ++ '\r' :: '\n' :: rest) = 1 + countCRLF rest := by
  induction body with
  | nil =>
    have h1 : ¬ ('\n' = '\r' ∧ rest.head? = some '\n') := fun hc => absurd hc.1 (by decide)
    simp [countCRLF, h1]
  | cons c body ih =>
    simp only [List.mem_cons, not_or] at h
    have hhead : (body ++ '\r' :: '\n' :: rest).head? ≠ some '\n' := by
      cases body with
      | nil => simp
      | cons b body' =>
        simp only [List.mem_cons, not_or] at h
        simpa using fun e => h.2.1 e.symm
    have hcond : ¬ (c = '\r' ∧ (body ++ '\r' :: '\n' :: rest).head? = some '\n') :=
      fun hc => hhead hc.2
    have hstep : countCRLF (c :: (body ++ '\r' :: '\n' :: rest)) =
        (if c = '\r' ∧ (body ++ '\r' :: '\n' :: rest).head? = some '\n' then 1 else 0) +
          countCRLF (body ++ '\r' :: '\n' :: rest) := rfl
    rw [List.cons_append, hstep, if_neg hcond, Nat.zero_add]
    exact ih h.2

theorem LFAfterCR_nil : LFAfterCR [] := by
  intro pre post h
  cases pre <;> simp at h

theorem cons_eq_append_cons {α : Type} {a b : α} {l pre post : List α} (hab : a ≠ b)
    (h : a :: l = pre ++ b :: post) : ∃ pre', pre = a :: pre' ∧ l = pre' ++ b :: post := by
  cases pre with
  | nil =>
    simp only [List.nil_append, List.cons.injEq] at h
    exact absurd h.1 hab
  | cons p pre' =>
    simp only [List.cons_append, List.cons.injEq] at h
    exact ⟨pre', by rw [h.1], h.2⟩

theorem LFAfterCR_line (body rest : List Char) (h : '\n' ∉ body) (hrest : LFAfterCR rest) :
    LFAfterCR (body ++ '\r' :: '\n' :: rest) := by
  induction body with
  | nil =>
    intro pre post heq
    obtain ⟨pre1, rfl, h1⟩ := cons_eq_append_cons (by decide) heq
    cases pre1 with
    | nil => exact ⟨[], rfl⟩
    | cons q pre2 =>
      simp only [List.cons_append, List.cons.injEq] at h1
      obtain ⟨pre', hp⟩ := hrest pre2 post h1.2
      exact ⟨'\r' :: q :: pre', by simp [hp]⟩
  | cons c body ih =>
    simp only [List.mem_cons, not_or] at h
    intro pre post heq
    have hc : c ≠ '\n' := fun e => h.1 e.symm
    obtain ⟨pre1, rfl, h1⟩ := cons_eq_append_cons hc heq
    obtain ⟨pre', hp⟩ := ih h.2 pre1 post h1
    exact ⟨c :: pre', by simp [hp]⟩

theorem join_lines (lines : List String)
    (h : ∀ l ∈ lines, ∃ body : String, l = body ++ "\r\n" ∧ '\n' ∉ body.data) :
    countCRLF (String.join lines).data = lines.length ∧ LFAfterCR (String.join lines).data := by
  induction lines with
  | nil => exact ⟨rfl, LFAfterCR_nil⟩
  | cons l lines ih =>
    obtain ⟨body, rfl, hbody⟩ := h l (by simp)
    obtain ⟨hcount, hlf⟩ := ih (fun l' hl' => h l' (List.mem_cons_of_mem _ hl'))
    have hdata : (String.join ((body ++ "\r\n") :: lines)).data =
        body.data ++ '\r' :: '\n' :: (String.join lines).data := by
      rw [join_cons]
      simp [String.data_append]
    rw [hdata]
    refine ⟨?_, LFAfterCR_line _ _ hbody hlf⟩
    rw [countCRLF_line _ _ hbody, hcount, List.length_cons]
    omega

/-! ## Commas of an escaped text -/

theorem replaceChars_comma (v : List Char) : CommaAfterBackslash (replaceChars v) := by
  induction v with
  | nil =>
    intro pre post h
    cases pre <;> simp [replaceChars] at h
  | cons c cs ih =>
    intro pre post h
    by_cases h1 : c = '\\'
    · subst h1
      have h' : '\\' :: '\\' :: replaceChars cs = pre ++ ',' :: post := h
      obtain ⟨pre1, rfl, h2⟩ := cons_eq_append_cons (by decide) h'
      obtain ⟨pre2, rfl, h3⟩ := cons_eq_append_cons (by decide) h2
      obtain ⟨pre', hp⟩ := ih pre2 post h3
      exact ⟨'\\' :: '\\' :: pre', by simp [hp]⟩
    · by_cases h2 : c = '\n'
      · subst h2
        have h' : '\\' :: 'n' :: replaceChars cs = pre ++ ',' :: post := h
        obtain ⟨pre1, rfl, h2⟩ := cons_eq_append_cons (by decide) h'
        obtain ⟨pre2, rfl, h3⟩ := cons_eq_append_cons (by decide) h2
        obtain ⟨pre', hp⟩ := ih pre2 post h3
        exact ⟨'\\' :: 'n' :: pre', by simp [hp]⟩
      · by_cases h3 : c = ','
        · subst h3
          have h' : '\\' :: ',' :: replaceChars cs = pre ++ ',' :: post := h
          obtain ⟨pre1, rfl, h2⟩ := cons_eq_append_cons (by decide) h'
          cases pre1 with
          | nil => exact ⟨[], rfl⟩
          | cons q pre2 =>
            simp only [List.cons_append, List.cons.injEq] at h2
            obtain ⟨pre', hp⟩ := ih pre2 post h2.2
            exact ⟨'\\' :: q :: pre', by simp [hp]⟩
        · have h' : c :: replaceChars cs = pre ++ ',' :: post := by
            have hc : replaceChars (c :: cs) = c :: replaceChars cs := by
              simp [replaceChars, valueFormatter, h1, h2, h3]
            rw [← hc]
            exact h
          obtain ⟨pre1, rfl, h2⟩ := cons_eq_append_cons h3 h'
          obtain ⟨pre', hp⟩ := ih pre1 post h2
          exact ⟨c :: pre', by simp [hp]⟩

/-! ## The number of lines -/

theorem equalFoldChars_length (U : UnicodeTables) (s t : List Char)
    (h : equalFoldChars U s t = true) : s.length = t.length := by
  induction s generalizing t with
  | nil =>
    cases t with
    | nil => rfl
    | cons b t => simp [equalFoldChars] at h
  | cons a s ih =>
    cases t with
    | nil => simp [equalFoldChars] at h
    | cons b t =>
      simp only [equalFoldChars, Bool.and_eq_true] at h
      simp [ih t h.2]

theorem not_categories_of_version (U : UnicodeTables) (k : String)
    (h : strings.EqualFold U k vcard.FieldVersion = true) :
    strings.EqualFold U k vcard.FieldCategories = false := by
  cases hc : strings.EqualFold U k vcard.FieldCategories with
  | false => rfl
  | true =>
    have h1 := equalFoldChars_length U _ _ h
    have h2 := equalFoldChars_length U _ _ hc
    have hv : vcard.FieldVersion.data.length = 7 := by decide
    have hcat : vcard.FieldCategories.data.length = 10 := by decide
    omega

theorem keyLines_length (U : UnicodeTables) (c : vcard.Card) (k : String) :
    (keyLines U c k).length =
      if strings.EqualFold U k vcard.FieldCategories then 1 else (c.index k).length := by
  unfold keyLines
  split_ifs <;> simp

theorem sum_lines_entries (U : UnicodeTables) (l : vcard.Card) :
    ((l.filter (fun kv => !strings.EqualFold U kv.1 vcard.FieldVersion)).map
      (fun kv => if strings.EqualFold U kv.1 vcard.FieldCategories then 1
        else kv.2.length)).sum =
      vcard.Card.plainEntries U l + vcard.Card.categoriesKeys U l := by
  induction l with
  | nil => rfl
  | cons kv l ih =>
    unfold vcard.Card.plainEntries vcard.Card.categoriesKeys at ih ⊢
    cases hv : strings.EqualFold U kv.1 vcard.FieldVersion with
    | true =>
      have hc := not_categories_of_version U kv.1 hv
      simp only [List.filter_cons, hv, hc, Bool.not_true, Bool.false_and, Bool.false_eq_true,
        if_false]
      exact ih
    | false =>
      cases hc : strings.EqualFold U kv.1 vcard.FieldCategories with
      | true =>
        simp only [List.filter_cons, hv, hc, Bool.not_false, Bool.not_true, Bool.and_false,
          Bool.false_eq_true, if_false, if_true, List.map_cons, List.sum_cons,
          List.length_cons]
        omega
      | false =>
        simp only [List.filter_cons, hv, hc, Bool.not_false, Bool.and_self, if_true,
          Bool.false_eq_true, if_false, List.map_cons, List.sum_cons]
        omega

theorem encodeLines_length (U : UnicodeTables) (c : vcard.Card) (version : vcard.Field)
    (hwf : c.WF) (hv : c.Get vcard.FieldVersion = some version) :
    (encodeLines U c).length = 3 + c.plainEntries U + c.categoriesKeys U := by
  have hperm : ((sort.Strings c.keys).filter
      (fun k => !strings.EqualFold U k vcard.FieldVersion)).Perm
      (c.keys.filter (fun k => !strings.EqualFold U k vcard.FieldVersion)) :=
    (sort_Strings_perm c.keys).filter _
  have hsum : (((sort.Strings c.keys).filter
      (fun k => !strings.EqualFold U k vcard.FieldVersion)).flatMap (keyLines U c)).length =
      c.plainEntries U + c.categoriesKeys U := by
    rw [List.length_flatMap, (hperm.map _).sum_eq]
    unfold vcard.Card.keys
    rw [List.filter_map, List.map_map, ← sum_lines_entries U c]
    congr 1
    apply List.map_congr_left
    intro kv hkv
    have hmem : kv ∈ c := (List.mem_filter.mp hkv).1
    have hidx : c.index kv.1 = kv.2 := mapIndex_of_mem c kv.1 kv.2 hwf hmem
    simp only [Function.comp, keyLines_length, hidx]
  simp only [encodeLines, hv, List.length_append, List.length_cons, List.length_nil, hsum]
  omega

/-- C20: the escaped form of every string holds no line feed and each of its
commas follows a backslash.  Hence, for a card with a VERSION field whose
keys, group prefixes and parameter names hold no line feed, what `Encode`
writes to a sink whose writes succeed holds exactly 3 + F + C occurrences of
CRLF, F being the number of field entries under the keys that equal neither
VERSION nor CATEGORIES under case folding and C the number of keys that equal
CATEGORIES under case folding, and every line feed in it follows a carriage
return. -/
theorem Encode_line_structure (U : UnicodeTables) (enc : Encoder) (c : vcard.Card)
    (version : vcard.Field) (hw : enc.w.reliable) (hwf : c.WF)
    (hv : c.Get vcard.FieldVersion = some version)
    (hkeys : ∀ k ∈ c.keys, '\n' ∉ k.data)
    (hfields : ∀ kv ∈ c, ∀ f ∈ kv.2,
      '\n' ∉ f.Group.data ∧ ∀ param ∈ f.Params, '\n' ∉ param.1.data) :
    (∀ v : String, '\n' ∉ (formatValue v).data ∧ CommaAfterBackslash (formatValue v).data) ∧
    ∃ out : String,
      (enc.Encode U c).1.w.bytes = enc.w.bytes ++ out ∧
      countCRLF out.data = 3 + c.plainEntries U + c.categoriesKeys U ∧
      LFAfterCR out.data := by
  refine ⟨fun v => ⟨formatValue_no_lf v, replaceChars_comma v.data⟩,
    String.join (encodeLines U c), ?_, ?_, ?_⟩
  · simp only [Sink.bytes, Encode_reliable_writes U enc c hw, join_append]
  · rw [(join_lines _ (encodeLines_no_lf U c hkeys hfields)).1,
      encodeLines_length U c version hwf hv]
  · exact (join_lines _ (encodeLines_no_lf U c hkeys hfields)).2

theorem Encode_line_structure_witness :
    (((NewEncoder Sink.fresh).Encode UnicodeTables.caseless cardWithOddValues).1.w.bytes =
      "BEGIN:VCARD\r\nVERSION:3.0\r\nCATEGORIES:Friends,Work\\n\r\ng.NOTE;X-A=p\\,q\\n:line one\\nline two\r\r\nNOTE:a\\,b\r\ncategories:\r\nEND:VCARD\r\n" ∧
      cardWithOddValues.plainEntries UnicodeTables.caseless = 2 ∧
      cardWithOddValues.categoriesKeys UnicodeTables.caseless = 2) ∧
    ((∀ v : String, '\n' ∉ (formatValue v).data ∧ CommaAfterBackslash (formatValue v).data) ∧
    ∃ out : String,
      ((NewEncoder Sink.fresh).Encode UnicodeTables.caseless cardWithOddValues).1.w.bytes =
        (NewEncoder Sink.fresh).w.bytes ++ out ∧
      countCRLF out.data =
        3 + cardWithOddValues.plainEntries UnicodeTables.caseless +
          cardWithOddValues.categoriesKeys UnicodeTables.caseless ∧
      LFAfterCR out.data) :=
  ⟨by decide,
    Encode_line_structure UnicodeTables.caseless (NewEncoder Sink.fresh) cardWithOddValues
      { Value := "3.0", Params := [], Group := "" } (by decide) (by decide) (by decide)
      (by decide) (by decide)⟩

end GContactBackup
